import Mathlib

/-!
# Two-phase PSF estimation: gradient confidence and the estimation driver

A shallow embedding of `src/two_phase_psf_estimation.cpp` (namespace
`TwoPhaseKernelEstimation`) and theorems about it.

Conventions of the embedding
* `int` is modelled by `Int` (signed overflow is undefined in C++, so no wrap-around
  is modelled); `/` and `%` on `int` are `Int.tdiv` and `Int.tmod` (truncation).
* `float`/`double` values live in a division ring `F`, and every operation of the
  source is followed by the rounding to its C++ type, given by a `Rounding F`:
  `Rounding.ieee754` (over `ℚ`) rounds as IEEE 754 single and double precision do,
  `Rounding.ideal` does not round at all (exact arithmetic, used over `ℝ` with
  `Real.sqrt`).  What holds for every `Rounding` holds for the program whatever its
  floating-point arithmetic is.
* A `cv::Mat` is its dimensions and its contents.  Element access `m.at<T>(y, x)`
  returns the element when the index is inside the matrix.  The source's `at<>` does
  not check its index, so an access outside the matrix has no defined result: the
  embedding gives it, and every call that makes it, the result `none`.
* The gradient matrix is given by the samples `at<Vec2b>` reads from it.  For the
  two-channel `float` matrix the caller passes, `readAsVec2b` gives these samples
  from the bytes of the matrix.
* Calls into the image library (`pyrDown`, `GaussianBlur`, `cvtColor`, `Sobel`,
  `merge`) are parameters collected in `External`; `imshow` has no result and is
  left out.
* For `convertFloatToUchar` the library calls `minMaxLoc`, `convertTo` and `-=` are
  given by what they compute; the element cast `saturate_cast<uchar>` is a parameter.
  The function returns the out-parameter together with the contents its input
  matrix has after the call.
-/

namespace TwoPhaseKernelEstimation

/-- An unsigned 8-bit value (`uchar`). -/
abbrev uchar := Fin 256

/-- A two-channel 8-bit sample (`cv::Vec2b`), as read by `at<Vec2b>`. -/
abbrev Vec2b := uchar × uchar

/-- A three-channel 8-bit sample (`cv::Vec3b`). -/
abbrev Vec3b := uchar × uchar × uchar

/-- A dense matrix (`cv::Mat`): `rows`, `cols` and the element stored at `(row, col)`. -/
structure Mat (α : Type) where
  rows : Nat
  cols : Nat
  data : Nat → Nat → α

namespace Mat

/-- The matrix `Mat::zeros(rows, cols, type)`; a negative size is refused. -/
def zeros {α : Type} [Zero α] (rows cols : Int) : Option (Mat α) :=
  if 0 ≤ rows ∧ 0 ≤ cols then some ⟨rows.toNat, cols.toNat, fun _ _ => 0⟩ else none

/-- Reading `m.at<T>(y, x)`: the element in row `y`, column `x`, when the index is inside
the matrix; `none` when it is outside, where the source's unchecked access has no
defined result. -/
def at? {α : Type} (m : Mat α) (y x : Int) : Option α :=
  if 0 ≤ y ∧ y < m.rows ∧ 0 ≤ x ∧ x < m.cols then some (m.data y.toNat x.toNat) else none

/-- Writing `m.at<T>(y, x) = v`: the matrix with that one element replaced, when the
index is inside; `none` when it is outside. -/
def setAt {α : Type} (m : Mat α) (y x : Int) (v : α) : Option (Mat α) :=
  if 0 ≤ y ∧ y < m.rows ∧ 0 ≤ x ∧ x < m.cols then
    some ⟨m.rows, m.cols, fun r c => if r = y.toNat ∧ c = x.toNat then v else m.data r c⟩
  else none

/-- Sum of all entries of an 8-bit matrix, taken over the rationals. -/
def total (m : Mat uchar) : ℚ :=
  ((List.range m.rows).map fun r =>
    ((List.range m.cols).map fun c => ((m.data r c).val : ℚ)).sum).sum

end Mat

/-- The loop `for (int i = start; <n more iterations>; i++) body`: `n` iterations of
`body` from index `i` on, stopping at the first failure. -/
def forLoopFrom {σ : Type} (body : Int → σ → Option σ) : Nat → Int → σ → Option σ
  | 0, _, s => some s
  | n + 1, i, s => (body i s).bind (forLoopFrom body n (i + 1))

/-- The loop `for (int i = lo; i < hi; i++) body` threading the state `s`; the body
changes neither `i` nor the bounds, so it runs `hi - lo` times (not at all when
`hi ≤ lo`). -/
def forLoop {σ : Type} (lo hi : Int) (body : Int → σ → Option σ) (s : σ) : Option σ :=
  forLoopFrom body (hi - lo).toNat lo s

/-- The loop `for (int i = lo; i <= hi; i++) body`. -/
def forLoopLe {σ : Type} (lo hi : Int) (body : Int → σ → Option σ) (s : σ) : Option σ :=
  forLoop lo (hi + 1) body s

section Confidence

variable {F : Type} [DivisionRing F]

/-- How the arithmetic of the source rounds: `toFloat` is applied to the exact result
of every `float` operation, `toDouble` to the exact result of every `double`
operation (and `toFloat` again where a `double` is stored into a `float`); `sqrt` is
the library function `sqrt` on a `float` argument, its result a `float`. -/
structure Rounding (F : Type) where
  toFloat : F → F
  toDouble : F → F
  sqrt : F → F

/-- Arithmetic without rounding, with the given square root. -/
def Rounding.ideal (sqrt : F → F) : Rounding F where
  toFloat := fun x => x
  toDouble := fun x => x
  sqrt := sqrt

/-- The function `norm(a, b) = sqrt(a * a + b * b)` on `float` arguments: the two
products and their sum are `float` operations. -/
def norm (fp : Rounding F) (a b : F) : F :=
  fp.sqrt (fp.toFloat (fp.toFloat (a * a) + fp.toFloat (b * b)))

/-- The accumulators of the window loops of `computeGradientConfidence`:
`sum` (the pair `sum.first`, `sum.second`) and `innerSum`, all `float`. -/
structure WindowAcc (F : Type) where
  sum : F × F
  innerSum : F

/-- The two nested offset loops of `computeGradientConfidence` (source lines 41-55)
around the pixel `(x, y)`: every sample of the window is read with `at<Vec2b>`, its
components are added to `sum` and its norm to `innerSum`, each `+=` a `float`
addition. -/
def windowSums (fp : Rounding F) (gradients : Mat Vec2b) (range x y : Int) :
    Option (WindowAcc F) :=
  forLoopLe (range * -1) range (fun xOffset acc =>
    forLoopLe (range * -1) range (fun yOffset acc =>
      (gradients.at? (y + yOffset) (x + xOffset)).bind fun gradient =>
        some
          { sum := (fp.toFloat (acc.sum.1 + (gradient.1.val : F)),
              fp.toFloat (acc.sum.2 + (gradient.2.val : F)))
            innerSum := fp.toFloat
              (acc.innerSum + norm fp (gradient.1.val : F) (gradient.2.val : F)) })
      acc)
    { sum := (0, 0), innerSum := 0 }

/-- The inner offset loop of `computeGradientConfidence` (source lines 42-54) alone, for
one column offset `xOffset` and the accumulators `acc` on entry; `windowSums` is the
outer loop around it (`windowSums_eq_columns`). -/
def windowColumn (fp : Rounding F) (gradients : Mat Vec2b) (range x y xOffset : Int)
    (acc : WindowAcc F) : Option (WindowAcc F) :=
  forLoopLe (range * -1) range (fun yOffset acc =>
    (gradients.at? (y + yOffset) (x + xOffset)).bind fun gradient =>
      some
        { sum := (fp.toFloat (acc.sum.1 + (gradient.1.val : F)),
            fp.toFloat (acc.sum.2 + (gradient.2.val : F)))
          innerSum := fp.toFloat
            (acc.innerSum + norm fp (gradient.1.val : F) (gradient.2.val : F)) })
    acc

/-- The right-hand side of source line 57, `norm(sum.first, sum.second) / (innerSum + 0.5)`:
`0.5` is a `double`, so the sum and the quotient are `double` operations, and the
quotient is stored into a `float` cell. -/
def storedRatio (fp : Rounding F) (acc : WindowAcc F) : F :=
  fp.toFloat (fp.toDouble (norm fp acc.sum.1 acc.sum.2 / fp.toDouble (acc.innerSum + 0.5)))

/-- The body of the pixel loops of `computeGradientConfidence` (source lines 39-58):
the mask is read at `(y, x)`; when it is non-zero the window sums are formed and
`norm(sum) / (innerSum + 0.5)` is stored at `(y, x)`. -/
def confidenceStep (fp : Rounding F) (gradients : Mat Vec2b) (mask : Mat uchar)
    (range x y : Int) (confidence : Mat F) : Option (Mat F) :=
  (mask.at? y x).bind fun m =>
    if m ≠ 0 then
      (windowSums fp gradients range x y).bind fun acc =>
        confidence.setAt y x (storedRatio fp acc)
    else some confidence

/-- The function `computeGradientConfidence(confidence, gradients, width, mask)`; the
out-parameter `confidence` is the result. -/
def computeGradientConfidence (fp : Rounding F) (gradients : Mat Vec2b) (width : Int)
    (mask : Mat uchar) : Option (Mat F) :=
  (Mat.zeros (gradients.rows : Int) (gradients.cols : Int)).bind fun confidence =>
    -- get range for Nh window
    let range := width.tdiv 2
    -- go through all pixels
    forLoop width ((gradients.cols : Int) - width) (fun x confidence =>
      forLoop width ((gradients.rows : Int) - width) (fun y confidence =>
        confidenceStep fp gradients mask range x y confidence) confidence) confidence

end Confidence

/-- The image-library calls of `estimateKernel`, as functions: `pyrDown(src, dst, size)`
and the chain `GaussianBlur`, `cvtColor`, `Sobel` (x and y), `merge` (source lines
116-146, the debug display of the two Sobel outputs included) that turns a pyramid
level into the two-channel gradient matrix, seen through `at<Vec2b>`. -/
structure External where
  pyrDown : Mat Vec3b → Int → Int → Mat Vec3b
  gradients : Mat Vec3b → Mat Vec2b

/-- The library filters keep the image size: the gradient matrix of a level has the
rows and columns of that level. -/
def External.keepsSize (ext : External) : Prop :=
  ∀ img : Mat Vec3b, (ext.gradients img).rows = img.rows ∧ (ext.gradients img).cols = img.cols

/-- The local `width` of `estimateKernel`: `(psfWidth % 2 == 0) ? psfWidth + 1 : psfWidth`. -/
def estimateKernel.width (psfWidth : Int) : Int :=
  if psfWidth.tmod 2 = 0 then psfWidth + 1 else psfWidth

/-- The local `level` of `estimateKernel`. -/
def estimateKernel.level : Int := 1

/-- The pyramid of `estimateKernel` (source lines 101-108): the image, followed by one
`pyrDown` of the previous entry for each `i < level - 1`. -/
def estimateKernel.pyramid (ext : External) (image : Mat Vec3b) : Option (List (Mat Vec3b)) :=
  forLoop 0 (estimateKernel.level - 1) (fun i pyramid =>
    (pyramid.get? i.toNat).bind fun p =>
      some (pyramid ++ [ext.pyrDown p ((p.cols : Int).tdiv 2) ((p.rows : Int).tdiv 2)]))
    [image]

/-- The function `estimateKernel(psf, image, psfWidth, mask)`; the out-parameter `psf` is
the result.  Each pyramid level has its gradient confidence computed at the odd
`width`; the kernel allocated at the start is what is returned. -/
def estimateKernel {F : Type} [DivisionRing F] (fp : Rounding F) (ext : External)
    (image : Mat Vec3b) (psfWidth : Int) (mask : Mat uchar) : Option (Mat uchar) :=
  -- set expected kernel width to odd number
  let width := estimateKernel.width psfWidth
  -- phase one: all-zero kernel
  (Mat.zeros psfWidth psfWidth).bind fun (kernel : Mat uchar) =>
    (estimateKernel.pyramid ext image).bind fun pyramid =>
      (forLoop 0 (pyramid.length : Int) (fun i (_ : Unit) =>
        (pyramid.get? i.toNat).bind fun level =>
          (computeGradientConfidence fp (ext.gradients level) width mask).bind
            fun (_ : Mat F) => some ()) ()).bind fun _ =>
        some kernel


/-! ## The confidence formula, for stating results -/

section Formula

variable {F : Type} [DivisionRing F]

/-- The gradient sample at offset `(dx, dy)` from the pixel `(x, y)`. -/
def windowSample (G : Mat Vec2b) (x y dx dy : Int) : Vec2b :=
  G.data (y + dy).toNat (x + dx).toNat

/-- First component of the sum of the gradient vectors over the offsets `-h..h` in
both directions around `(x, y)`. -/
def windowSumX (G : Mat Vec2b) (h x y : Int) : F :=
  ∑ dx ∈ Finset.Icc (-h) h, ∑ dy ∈ Finset.Icc (-h) h, ((windowSample G x y dx dy).1.val : F)

/-- Second component of the sum of the gradient vectors over the same window. -/
def windowSumY (G : Mat Vec2b) (h x y : Int) : F :=
  ∑ dx ∈ Finset.Icc (-h) h, ∑ dy ∈ Finset.Icc (-h) h, ((windowSample G x y dx dy).2.val : F)

/-- Sum of the norms of the gradient vectors over the same window, without rounding. -/
def windowNormSum (sqrt : F → F) (G : Mat Vec2b) (h x y : Int) : F :=
  ∑ dx ∈ Finset.Icc (-h) h, ∑ dy ∈ Finset.Icc (-h) h,
    norm (Rounding.ideal sqrt) ((windowSample G x y dx dy).1.val : F)
      ((windowSample G x y dx dy).2.val : F)

/-- The ratio `r(x) = ‖Σ ∇B‖ / (Σ ‖∇B‖ + 0.5)` over the `(2h+1) x (2h+1)` window centred
at `(x, y)`, without rounding. -/
def windowRatio (sqrt : F → F) (G : Mat Vec2b) (h x y : Int) : F :=
  norm (Rounding.ideal sqrt) (windowSumX G h x y) (windowSumY G h x y) /
    (windowNormSum sqrt G h x y + 0.5)

/-- The value the pixel loops store at a visited pixel `(x, y)` with non-zero mask: the
stored ratio of the window sums (`0` stands in where the window loops have no
result). -/
def windowValue (fp : Rounding F) (G : Mat Vec2b) (r x y : Int) : F :=
  ((windowSums fp G r x y).map (storedRatio fp)).getD 0

end Formula

/-- The cells the pixel loops of `computeGradientConfidence` visit:
`width ≤ x < cols - width` and `width ≤ y < rows - width`. -/
abbrev visited (G : Mat Vec2b) (w : Int) (row col : Nat) : Prop :=
  w ≤ col ∧ (col : Int) < G.cols - w ∧ w ≤ row ∧ (row : Int) < G.rows - w

/-! ## Single and double precision -/

/-- Number of halvings that bring `n` below 2, at most `fuel` of them. -/
def log2Aux : Nat → Nat → Nat
  | 0, _ => 0
  | fuel + 1, n => if n < 2 then 0 else log2Aux fuel (n / 2) + 1

/-- The position of the leading bit of `n`: `2 ^ floorLog2 n ≤ n < 2 ^ (floorLog2 n + 1)`
for `n > 0`. -/
def floorLog2 (n : Nat) : Nat := log2Aux n n

/-- The power `2 ^ e` for an integer exponent. -/
def pow2 (e : Int) : ℚ :=
  if 0 ≤ e then ((2 ^ e.toNat : Nat) : ℚ) else 1 / ((2 ^ (-e).toNat : Nat) : ℚ)

/-- The binary exponent of `x ≠ 0`: the `e` with `2 ^ e ≤ |x| < 2 ^ (e + 1)`. -/
def binaryExponent (x : ℚ) : Int :=
  let e := (floorLog2 x.num.natAbs : Int) - (floorLog2 x.den : Int)
  if pow2 e ≤ |x| then e else e - 1

/-- Rounding to the nearest number with `p` significant bits, ties to the even
significand (the IEEE 754 default); the exponent range is not bounded, so overflow and
subnormal numbers are not modelled. -/
def roundTo (p : Nat) (x : ℚ) : ℚ :=
  if x = 0 then 0 else
    let ulp := pow2 (binaryExponent x + 1 - p)
    let q := |x| / ulp
    let m := ⌊q⌋
    let r := q - m
    let m' := if r < 1 / 2 then m else if 1 / 2 < r then m + 1
      else if m % 2 = 0 then m else m + 1
    (if x < 0 then -1 else 1) * m' * ulp

/-- Bit-by-bit integer square root: with `r ^ 2 ≤ n < (r + 2 ^ k) ^ 2` on entry the
result is the largest `s` with `s ^ 2 ≤ n`. -/
def isqrtBits (n : Nat) : Nat → Nat → Nat
  | 0, r => r
  | k + 1, r =>
    if (r + 2 ^ k) * (r + 2 ^ k) ≤ n then isqrtBits n k (r + 2 ^ k) else isqrtBits n k r

/-- The integer square root `⌊√n⌋`. -/
def isqrt (n : Nat) : Nat := isqrtBits n (floorLog2 n / 2 + 1) 0

/-- The square root of `x > 0` rounded to the nearest number with `p` significant
bits, as a correctly rounded `sqrt` returns it (0 for `x ≤ 0`). -/
def sqrtRound (p : Nat) (x : ℚ) : ℚ :=
  if x ≤ 0 then 0 else
    let k := (p : Int) - 1 - binaryExponent x / 2
    let scaled := x * pow2 (2 * k)
    let m : ℚ := (isqrt ⌊scaled⌋.toNat : ℚ)
    let m' := if scaled < (m + 1 / 2) * (m + 1 / 2) then m
      else if (m + 1 / 2) * (m + 1 / 2) < scaled then m + 1
      else if isqrt ⌊scaled⌋.toNat % 2 = 0 then m else m + 1
    m' * pow2 (-k)

/-- IEEE 754 arithmetic: `float` is binary32 (24 significant bits), `double` is binary64
(53 significant bits), every operation rounds once to its type, and `sqrt` on a `float`
returns the correctly rounded single-precision root. -/
def Rounding.ieee754 : Rounding ℚ where
  toFloat := roundTo 24
  toDouble := roundTo 53
  sqrt := sqrtRound 24

/-- A rounding keeps the sign when it maps non-negative numbers to non-negative
numbers. -/
def Rounding.keepsSign {F : Type} [LinearOrderedField F] (fp : Rounding F) : Prop :=
  (∀ x : F, 0 ≤ x → 0 ≤ fp.toFloat x) ∧ (∀ x : F, 0 ≤ x → 0 ≤ fp.toDouble x) ∧
    ∀ x : F, 0 ≤ x → 0 ≤ fp.sqrt x

/-! ## The two-channel float matrix of the caller -/

/-- A two-channel single-precision element (`cv::Vec2f`), each component given by the
32 bits of its binary32 encoding. -/
abbrev Vec2fBits := Nat × Nat

/-- The number a binary32 bit pattern encodes (sign bit, 8 exponent bits, 23 fraction
bits), for the finite patterns. -/
def binary32Value (bits : Nat) : ℚ :=
  let sign : ℚ := if bits / 2 ^ 31 % 2 = 0 then 1 else -1
  let e : Nat := bits / 2 ^ 23 % 256
  let m : Nat := bits % 2 ^ 23
  if e = 0 then sign * (m : ℚ) * pow2 (-149)
  else sign * ((2 ^ 23 + m : Nat) : ℚ) * pow2 ((e : Int) - 150)

/-- Byte `b` of row `r` of a two-channel float matrix: an element takes 8 bytes, the
first component in bytes 0-3 and the second in bytes 4-7, least significant byte first
(rows are stored without gaps between elements). -/
def rowByte (m : Mat Vec2fBits) (r b : Nat) : uchar :=
  let word := if b % 8 < 4 then (m.data r (b / 8)).1 else (m.data r (b / 8)).2
  ⟨word / 256 ^ (b % 4) % 256, Nat.mod_lt _ (by decide)⟩

/-- The samples `at<Vec2b>(y, x)` reads from a two-channel float matrix: the element
size of `Vec2b` is 2, so the read takes the bytes `2 * x` and `2 * x + 1` of row `y`. -/
def readAsVec2b (m : Mat Vec2fBits) : Mat Vec2b :=
  ⟨m.rows, m.cols, fun r c => (rowByte m r (2 * c), rowByte m r (2 * c + 1))⟩

section FieldFormula

variable {F : Type} [DivisionRing F]

/-- The gradient vector of the float matrix at offset `(dx, dy)` from the pixel `(x, y)`. -/
def fieldSample (f : Mat Vec2fBits) (x y dx dy : Int) : ℚ × ℚ :=
  (binary32Value (f.data (y + dy).toNat (x + dx).toNat).1,
    binary32Value (f.data (y + dy).toNat (x + dx).toNat).2)

/-- First component of the sum of the gradient vectors of the float matrix over the
offsets `-h..h` in both directions around `(x, y)`. -/
def fieldSumX (f : Mat Vec2fBits) (h x y : Int) : F :=
  ∑ dx ∈ Finset.Icc (-h) h, ∑ dy ∈ Finset.Icc (-h) h, ((fieldSample f x y dx dy).1 : F)

/-- Second component of the sum of the gradient vectors of the float matrix. -/
def fieldSumY (f : Mat Vec2fBits) (h x y : Int) : F :=
  ∑ dx ∈ Finset.Icc (-h) h, ∑ dy ∈ Finset.Icc (-h) h, ((fieldSample f x y dx dy).2 : F)

/-- Sum of the norms of the gradient vectors of the float matrix over the window. -/
def fieldNormSum (sqrt : F → F) (f : Mat Vec2fBits) (h x y : Int) : F :=
  ∑ dx ∈ Finset.Icc (-h) h, ∑ dy ∈ Finset.Icc (-h) h,
    norm (Rounding.ideal sqrt) ((fieldSample f x y dx dy).1 : F)
      ((fieldSample f x y dx dy).2 : F)

/-- The ratio of the doc comment of `computeGradientConfidence`,
`‖Σ ∇B‖ / (Σ ‖∇B‖ + 0.5)`, on the gradient vectors of the float matrix. -/
def fieldRatio (sqrt : F → F) (f : Mat Vec2fBits) (h x y : Int) : F :=
  norm (Rounding.ideal sqrt) (fieldSumX f h x y) (fieldSumY f h x y) /
    (fieldNormSum sqrt f h x y + 0.5)

end FieldFormula

/-! ## Small concrete inputs -/

/-- A 5 x 5 gradient matrix: the sample `(3, 4)` at the centre, `(1, 0)` elsewhere. -/
def exampleGradients : Mat Vec2b :=
  ⟨5, 5, fun r c => if r = 2 ∧ c = 2 then (3, 4) else (1, 0)⟩

/-- A 5 x 5 mask that is non-zero everywhere. -/
def exampleMask : Mat uchar := ⟨5, 5, fun _ _ => 1⟩

/-- A 5 x 5 mask that is zero at `(1, 1)` and `(2, 3)` and non-zero elsewhere. -/
def exampleMaskHoles : Mat uchar :=
  ⟨5, 5, fun r c => if (r = 1 ∧ c = 1) ∨ (r = 2 ∧ c = 3) then 0 else 1⟩

/-- A 12 x 12 uniformly grey colour image. -/
def exampleImage : Mat Vec3b := ⟨12, 12, fun _ _ => (128, 128, 128)⟩

/-- A 12 x 12 mask that is non-zero everywhere. -/
def exampleImageMask : Mat uchar := ⟨12, 12, fun _ _ => 1⟩

/-- A 1 x 1 colour image. -/
def examplePixel : Mat Vec3b := ⟨1, 1, fun _ _ => (128, 128, 128)⟩

/-- A 1 x 1 mask that is non-zero. -/
def examplePixelMask : Mat uchar := ⟨1, 1, fun _ _ => 1⟩

/-- Size-keeping stand-ins for the library calls: `pyrDown` samples every second pixel
into an image of the requested size, the gradient chain copies two of the channels. -/
def exampleExternal : External where
  pyrDown := fun img cols rows => ⟨rows.toNat, cols.toNat, fun r c => img.data (2 * r) (2 * c)⟩
  gradients := fun img => ⟨img.rows, img.cols, fun r c => ((img.data r c).1, (img.data r c).2.1)⟩

/-- A 5 x 5 gradient matrix whose samples are all multiples of `(3, 4)`: `(6, 8)` in
row 2 and `(3, 4)` in the other rows. -/
def exampleParallel : Mat Vec2b :=
  ⟨5, 5, fun r _ => if r = 2 then (6, 8) else (3, 4)⟩

/-- The elements of a matrix, row by row. -/
def Mat.entries {α : Type} (m : Mat α) : List α :=
  (List.range m.rows).flatMap fun r => (List.range m.cols).map fun c => m.data r c

section Visualization

variable {F : Type} [LinearOrderedField F]

/-- The library call `minMaxLoc(m, &min, &max)`: the smallest and the largest element of
the matrix; a matrix without elements has none. -/
def minMaxLoc (m : Mat F) : Option (F × F) :=
  match m.entries with
  | [] => none
  | a :: as => some (as.foldl min a, as.foldl max a)

/-- The library call `m.convertTo(dst, CV_8U, alpha)`: every element is multiplied by
`alpha` and cast with `saturate_cast<uchar>`, which is a parameter. -/
def Mat.convertTo (saturate : F → uchar) (m : Mat F) (alpha : F) : Mat uchar :=
  ⟨m.rows, m.cols, fun r c => saturate (m.data r c * alpha)⟩

/-- The in-place update `m -= s`: the matrix `m` holds afterwards. -/
def Mat.subScalar (m : Mat F) (s : F) : Mat F :=
  ⟨m.rows, m.cols, fun r c => m.data r c - s⟩

/-- What a call of `convertFloatToUchar` leaves behind: the out-parameter `ucharMat`
and the contents of the matrix passed as `floatMat`. -/
structure ConvertResult (F : Type) where
  ucharMat : Mat uchar
  floatMat : Mat F

/-- The function `convertFloatToUchar(ucharMat, floatMat)`. -/
def convertFloatToUchar (saturate : F → uchar) (floatMat : Mat F) :
    Option (ConvertResult F) :=
  -- find min and max value
  (minMaxLoc floatMat).bind fun mm =>
    let min := mm.1
    let max := mm.2
    -- if the matrix is in the range [0, 1] just scale with 255
    if min ≥ 0 ∧ max < 1 then
      some ⟨floatMat.convertTo saturate 255, floatMat⟩
    else
      -- handling that floats could be negative
      let floatMat := floatMat.subScalar min
      some ⟨floatMat.convertTo saturate (255 / (max - min)), floatMat⟩

/-- A 1 x 2 float matrix with the elements 1 and 3. -/
def exampleFloat (F : Type) [LinearOrderedField F] : Mat F :=
  ⟨1, 2, fun _ c => if c = 0 then 1 else 3⟩

/-- A 1 x 1 float matrix with the element 2. -/
def exampleConstant (F : Type) [LinearOrderedField F] : Mat F :=
  ⟨1, 1, fun _ _ => 2⟩

end Visualization

/-- A 39 x 39 gradient matrix with the sample `(253, 254)` everywhere. -/
def exampleField39 : Mat Vec2b := ⟨39, 39, fun _ _ => (253, 254)⟩

/-- A 39 x 39 mask that is non-zero everywhere. -/
def exampleMask39 : Mat uchar := ⟨39, 39, fun _ _ => 1⟩

/-- A 5 x 5 two-channel float matrix with the gradient `(1.0, 0.0)` everywhere
(`0x3F800000` encodes `1.0`). -/
def exampleUniformField : Mat Vec2fBits := ⟨5, 5, fun _ _ => (0x3F800000, 0)⟩

/-- A 5 x 5 two-channel float matrix with the gradient `(1.0, 0.0)` in columns 0 and 1,
`(-1.0, 0.0)` in column 3 and `(0.0, 0.0)` in columns 2 and 4 (`0xBF800000` encodes
`-1.0`). -/
def exampleCancelField : Mat Vec2fBits :=
  ⟨5, 5, fun _ c => if c ≤ 1 then (0x3F800000, 0) else if c = 3 then (0xBF800000, 0)
    else (0, 0)⟩

/-! ## Loop rules -/

theorem forLoopFrom_inv {σ : Type} (body : Int → σ → Option σ) (P : Int → σ → Prop) :
    ∀ (n : Nat) (i : Int) (s s' : σ), P i s →
      (∀ j t t', i ≤ j → j < i + n → P j t → body j t = some t' → P (j + 1) t') →
      forLoopFrom body n i s = some s' → P (i + n) s' := by
  intro n
  induction n with
  | zero =>
    intro i s s' h0 _ h
    simp [forLoopFrom] at h
    subst h
    simpa using h0
  | succ n ih =>
    intro i s s' h0 hstep h
    simp only [forLoopFrom] at h
    cases hb : body i s with
    | none => simp [hb] at h
    | some t =>
      simp only [hb, Option.some_bind] at h
      have h1 : P (i + 1) t := hstep i s t le_rfl (by push_cast; omega) h0 hb
      have := ih (i + 1) t s' h1
        (fun j u u' hj1 hj2 => hstep j u u' (by omega) (by push_cast; omega)) h
      have e : i + ((n + 1 : Nat) : Int) = i + 1 + (n : Int) := by push_cast; ring
      rw [e]
      exact this

theorem forLoopFrom_total {σ : Type} (body : Int → σ → Option σ) (P : Int → σ → Prop) :
    ∀ (n : Nat) (i : Int) (s : σ), P i s →
      (∀ j t, i ≤ j → j < i + n → P j t → ∃ t', body j t = some t' ∧ P (j + 1) t') →
      ∃ s', forLoopFrom body n i s = some s' ∧ P (i + n) s' := by
  intro n
  induction n with
  | zero =>
    intro i s h0 _
    exact ⟨s, by simp [forLoopFrom], by simpa using h0⟩
  | succ n ih =>
    intro i s h0 hstep
    obtain ⟨t, hb, h1⟩ := hstep i s le_rfl (by push_cast; omega) h0
    obtain ⟨s', hs', hP⟩ := ih (i + 1) t h1
      (fun j u hj1 hj2 => hstep j u (by omega) (by push_cast; omega))
    refine ⟨s', by simp [forLoopFrom, hb, hs'], ?_⟩
    have e : i + ((n + 1 : Nat) : Int) = i + 1 + (n : Int) := by push_cast; ring
    rw [e]
    exact hP

/-- Partial correctness of a counted loop: an invariant kept by every iteration that
returns holds, at index `max lo hi`, of the state the loop returns. -/
theorem forLoop_inv {σ : Type} (lo hi : Int) (body : Int → σ → Option σ)
    (P : Int → σ → Prop) (s s' : σ) (h0 : P lo s)
    (hstep : ∀ j t t', lo ≤ j → j < hi → P j t → body j t = some t' → P (j + 1) t')
    (h : forLoop lo hi body s = some s') : P (max lo hi) s' := by
  have := forLoopFrom_inv body P (hi - lo).toNat lo s s' h0
    (fun j t t' h1 h2 => hstep j t t' h1 (by omega)) h
  have e : lo + ((hi - lo).toNat : Int) = max lo hi := by omega
  rwa [e] at this

/-- Total correctness of a counted loop: when every iteration returns and keeps the
invariant, the loop returns a state with the invariant at index `max lo hi`. -/
theorem forLoop_total {σ : Type} (lo hi : Int) (body : Int → σ → Option σ)
    (P : Int → σ → Prop) (s : σ) (h0 : P lo s)
    (hstep : ∀ j t, lo ≤ j → j < hi → P j t → ∃ t', body j t = some t' ∧ P (j + 1) t') :
    ∃ s', forLoop lo hi body s = some s' ∧ P (max lo hi) s' := by
  have := forLoopFrom_total body P (hi - lo).toNat lo s h0
    (fun j t h1 h2 => hstep j t h1 (by omega))
  have e : lo + ((hi - lo).toNat : Int) = max lo hi := by omega
  rwa [e] at this

/-- A loop returns when every iteration returns. -/
theorem forLoop_returns {σ : Type} (lo hi : Int) (body : Int → σ → Option σ) (s : σ)
    (hstep : ∀ j t, lo ≤ j → j < hi → ∃ t', body j t = some t') :
    ∃ s', forLoop lo hi body s = some s' := by
  obtain ⟨s', hs', _⟩ := forLoop_total lo hi body (fun _ _ => True) s trivial
    (fun j t h1 h2 _ => (hstep j t h1 h2).imp fun _ h => ⟨h, trivial⟩)
  exact ⟨s', hs'⟩

/-- A loop whose first iteration has no result has none. -/
theorem forLoop_first_none {σ : Type} (lo hi : Int) (body : Int → σ → Option σ) (s : σ)
    (hlt : lo < hi) (hb : body lo s = none) : forLoop lo hi body s = none := by
  unfold forLoop
  obtain ⟨n, hn⟩ : ∃ n, (hi - lo).toNat = n + 1 := ⟨(hi - lo).toNat - 1, by omega⟩
  rw [hn]
  simp [forLoopFrom, hb]


/-! ## Matrix access -/

theorem Mat.at?_eq_some {α : Type} (m : Mat α) (y x : Int) (v : α)
    (h : m.at? y x = some v) :
    (0 ≤ y ∧ y < m.rows ∧ 0 ≤ x ∧ x < m.cols) ∧ v = m.data y.toNat x.toNat := by
  unfold Mat.at? at h
  split at h
  · rename_i hin
    exact ⟨hin, by simpa using h.symm⟩
  · simp at h

theorem Mat.at?_inside {α : Type} (m : Mat α) (y x : Int)
    (h : 0 ≤ y ∧ y < m.rows ∧ 0 ≤ x ∧ x < m.cols) :
    m.at? y x = some (m.data y.toNat x.toNat) := by
  simp [Mat.at?, h]

theorem Mat.at?_outside {α : Type} (m : Mat α) (y x : Int)
    (h : ¬ (0 ≤ y ∧ y < m.rows ∧ 0 ≤ x ∧ x < m.cols)) : m.at? y x = none := by
  simp only [Mat.at?, if_neg h]

theorem Mat.at?_natCast {α : Type} (m : Mat α) (r c : Nat) (hr : r < m.rows)
    (hc : c < m.cols) : m.at? (r : Int) (c : Int) = some (m.data r c) := by
  rw [Mat.at?_inside m r c ⟨by omega, by omega, by omega, by omega⟩]
  simp

theorem Mat.zeros_natCast {α : Type} [Zero α] (r c : Nat) :
    (Mat.zeros (r : Int) (c : Int) : Option (Mat α)) = some ⟨r, c, fun _ _ => 0⟩ := by
  simp [Mat.zeros]

/-! ## The window loops -/

theorem sum_Ico_succ_int {M : Type} [AddCommMonoid M] (f : Int → M) (a j : Int)
    (h : a ≤ j) : ∑ i ∈ Finset.Ico a (j + 1), f i = ∑ i ∈ Finset.Ico a j, f i + f j := by
  have e : Finset.Ico a (j + 1) = insert j (Finset.Ico a j) := by
    ext k
    simp only [Finset.mem_Ico, Finset.mem_insert]
    omega
  rw [e, Finset.sum_insert (by simp), add_comm]

theorem Ico_max_eq_Icc (h : Int) :
    Finset.Ico (h * -1) (max (h * -1) (h + 1)) = Finset.Icc (-h) h := by
  ext k
  simp only [Finset.mem_Ico, Finset.mem_Icc]
  omega

section WindowLoops

variable {F : Type} [DivisionRing F]

/-- Without rounding, the accumulators the window loops return hold the three window
sums. -/
theorem windowSums_spec (sqrt : F → F) (G : Mat Vec2b) (r x y : Int) (acc : WindowAcc F)
    (h : windowSums (Rounding.ideal sqrt) G r x y = some acc) :
    acc.sum.1 = windowSumX G r x y ∧ acc.sum.2 = windowSumY G r x y ∧
      acc.innerSum = windowNormSum sqrt G r x y := by
  unfold windowSums forLoopLe at h
  have outer := forLoop_inv (r * -1) (r + 1) _
    (fun i (a : WindowAcc F) =>
      a.sum.1 = ∑ dx ∈ Finset.Ico (r * -1) i, ∑ dy ∈ Finset.Icc (-r) r,
          ((windowSample G x y dx dy).1.val : F) ∧
      a.sum.2 = ∑ dx ∈ Finset.Ico (r * -1) i, ∑ dy ∈ Finset.Icc (-r) r,
          ((windowSample G x y dx dy).2.val : F) ∧
      a.innerSum = ∑ dx ∈ Finset.Ico (r * -1) i, ∑ dy ∈ Finset.Icc (-r) r,
          norm (Rounding.ideal sqrt) ((windowSample G x y dx dy).1.val : F)
            ((windowSample G x y dx dy).2.val : F))
    _ _ (by simp) ?_ h
  · beta_reduce at outer
    rw [Ico_max_eq_Icc] at outer
    exact outer
  · intro j t t' hj1 _ hP hb
    obtain ⟨h1, h2, h3⟩ := hP
    have inner := forLoop_inv (r * -1) (r + 1) _
      (fun i (a : WindowAcc F) =>
        a.sum.1 = t.sum.1 + ∑ dy ∈ Finset.Ico (r * -1) i,
            ((windowSample G x y j dy).1.val : F) ∧
        a.sum.2 = t.sum.2 + ∑ dy ∈ Finset.Ico (r * -1) i,
            ((windowSample G x y j dy).2.val : F) ∧
        a.innerSum = t.innerSum + ∑ dy ∈ Finset.Ico (r * -1) i,
            norm (Rounding.ideal sqrt) ((windowSample G x y j dy).1.val : F)
              ((windowSample G x y j dy).2.val : F))
      _ _ (by simp) ?_ hb
    · beta_reduce at inner
      rw [Ico_max_eq_Icc] at inner
      obtain ⟨i1, i2, i3⟩ := inner
      rw [sum_Ico_succ_int _ _ _ hj1, sum_Ico_succ_int _ _ _ hj1,
        sum_Ico_succ_int _ _ _ hj1, i1, i2, i3, h1, h2, h3]
      exact ⟨rfl, rfl, rfl⟩
    · intro k u u' hk1 _ hQ hb2
      obtain ⟨q1, q2, q3⟩ := hQ
      beta_reduce at hb2
      cases hg : G.at? (y + k) (x + j) with
      | none => simp [hg] at hb2
      | some g =>
        obtain ⟨_, hgv⟩ := Mat.at?_eq_some _ _ _ _ hg
        simp only [hg, Option.some_bind, Option.some.injEq] at hb2
        subst hb2
        rw [sum_Ico_succ_int _ _ _ hk1, sum_Ico_succ_int _ _ _ hk1,
          sum_Ico_succ_int _ _ _ hk1]
        simp only [Rounding.ideal, windowSample, ← hgv, q1, q2, q3, add_assoc, and_self]

/-- The window loops return whenever every sample of the window is inside the matrix. -/
theorem windowSums_total (fp : Rounding F) (G : Mat Vec2b) (r x y : Int)
    (hin : ∀ dx dy : Int, -r ≤ dx → dx ≤ r → -r ≤ dy → dy ≤ r →
      0 ≤ y + dy ∧ y + dy < G.rows ∧ 0 ≤ x + dx ∧ x + dx < G.cols) :
    ∃ acc : WindowAcc F, windowSums fp G r x y = some acc := by
  unfold windowSums forLoopLe
  apply forLoop_returns
  intro j t hj1 hj2
  apply forLoop_returns
  intro k u hk1 hk2
  rw [Mat.at?_inside G _ _ (hin j k (by omega) (by omega) (by omega) (by omega))]
  exact ⟨_, rfl⟩

/-- Where the window loops return, the value of the window is the stored ratio of their
result. -/
theorem windowValue_of_some (fp : Rounding F) (G : Mat Vec2b) (r x y : Int)
    (acc : WindowAcc F) (h : windowSums fp G r x y = some acc) :
    windowValue fp G r x y = storedRatio fp acc := by
  simp [windowValue, h]

/-- Without rounding, the value of a window inside the matrix is the window ratio. -/
theorem windowValue_ideal (sqrt : F → F) (G : Mat Vec2b) (r x y : Int)
    (hin : ∀ dx dy : Int, -r ≤ dx → dx ≤ r → -r ≤ dy → dy ≤ r →
      0 ≤ y + dy ∧ y + dy < G.rows ∧ 0 ≤ x + dx ∧ x + dx < G.cols) :
    windowValue (Rounding.ideal sqrt) G r x y = windowRatio sqrt G r x y := by
  obtain ⟨acc, hacc⟩ := windowSums_total (Rounding.ideal sqrt) G r x y hin
  obtain ⟨s1, s2, s3⟩ := windowSums_spec sqrt G r x y acc hacc
  rw [windowValue_of_some _ G r x y acc hacc, windowRatio, ← s1, ← s2, ← s3]
  rfl

/-! ## The pixel loops -/

/-- What one pixel step does when it returns: the size is kept, and only the cell
`(y, x)` may change, to the value of the window, when the mask is non-zero there. -/
theorem confidenceStep_spec (fp : Rounding F) (G : Mat Vec2b) (M : Mat uchar)
    (r x y : Int) (c c' : Mat F) (h : confidenceStep fp G M r x y c = some c') :
    c'.rows = c.rows ∧ c'.cols = c.cols ∧
      ∀ row col : Nat, c'.data row col =
        if (row : Int) = y ∧ (col : Int) = x ∧ M.at? y x ≠ some 0 then
          windowValue fp G r x y
        else c.data row col := by
  unfold confidenceStep at h
  cases hm : M.at? y x with
  | none => simp [hm] at h
  | some m =>
    simp only [hm, Option.some_bind] at h
    by_cases hz : m = 0
    · subst hz
      simp only [ne_eq, not_true_eq_false, if_false, Option.some.injEq] at h
      subst h
      simp
    · simp only [ne_eq, hz, not_false_eq_true, if_true] at h
      cases hw : windowSums fp G r x y with
      | none => simp [hw] at h
      | some acc =>
        simp only [hw, Option.some_bind] at h
        have hval := windowValue_of_some fp G r x y acc hw
        unfold Mat.setAt at h
        split at h
        · rename_i hin
          simp only [Option.some.injEq] at h
          subst h
          refine ⟨rfl, rfl, ?_⟩
          intro row col
          have e1 : (row = y.toNat ∧ col = x.toNat) ↔ ((row : Int) = y ∧ (col : Int) = x) := by
            omega
          simp only [e1, hval, ne_eq, Option.some.injEq, hz, not_false_eq_true, and_true]
        · simp at h

/-- A pixel step returns when the mask and the map can be accessed at `(y, x)` and the
whole window is inside the gradient matrix. -/
theorem confidenceStep_total (fp : Rounding F) (G : Mat Vec2b) (M : Mat uchar)
    (r x y : Int) (c : Mat F)
    (hM : 0 ≤ y ∧ y < M.rows ∧ 0 ≤ x ∧ x < M.cols)
    (hc : 0 ≤ y ∧ y < c.rows ∧ 0 ≤ x ∧ x < c.cols)
    (hin : ∀ dx dy : Int, -r ≤ dx → dx ≤ r → -r ≤ dy → dy ≤ r →
      0 ≤ y + dy ∧ y + dy < G.rows ∧ 0 ≤ x + dx ∧ x + dx < G.cols) :
    ∃ c', confidenceStep fp G M r x y c = some c' := by
  unfold confidenceStep
  rw [Mat.at?_inside M y x hM]
  simp only [Option.some_bind]
  split
  · obtain ⟨acc, hacc⟩ := windowSums_total fp G r x y hin
    rw [hacc]
    simp only [Option.some_bind, Mat.setAt, if_pos hc]
    exact ⟨_, rfl⟩
  · exact ⟨_, rfl⟩

/-- Every map `computeGradientConfidence` returns has the size of the gradient matrix,
holds the value of the window at each visited cell whose mask is non-zero, and `0`
elsewhere. -/
theorem computeGradientConfidence_spec (fp : Rounding F) (G : Mat Vec2b) (w : Int)
    (M : Mat uchar) (R : Mat F) (h : computeGradientConfidence fp G w M = some R) :
    R.rows = G.rows ∧ R.cols = G.cols ∧
      ∀ row col : Nat, R.data row col =
        if visited G w row col ∧ M.at? row col ≠ some 0 then
          windowValue fp G (w.tdiv 2) col row
        else 0 := by
  unfold computeGradientConfidence at h
  rw [Mat.zeros_natCast] at h
  simp only [Option.some_bind] at h
  have outer := forLoop_inv w ((G.cols : Int) - w) _
    (fun i (c : Mat F) => c.rows = G.rows ∧ c.cols = G.cols ∧
      ∀ row col : Nat, c.data row col =
        if (w ≤ col ∧ (col : Int) < i ∧ w ≤ row ∧ (row : Int) < G.rows - w) ∧
            M.at? row col ≠ some 0 then
          windowValue fp G (w.tdiv 2) col row
        else 0)
    _ _ ?_ ?_ h
  · beta_reduce at outer
    obtain ⟨o1, o2, o3⟩ := outer
    refine ⟨o1, o2, ?_⟩
    intro row col
    rw [o3 row col]
    have e : (w ≤ col ∧ (col : Int) < max w ((G.cols : Int) - w) ∧ w ≤ row ∧
        (row : Int) < G.rows - w) ↔ visited G w row col := by
      unfold visited
      omega
    simp only [e]
  · refine ⟨rfl, rfl, ?_⟩
    intro row col
    have e : ¬ (w ≤ (col : Int) ∧ (col : Int) < w ∧ w ≤ (row : Int) ∧
        (row : Int) < G.rows - w) := by omega
    simp only [e, false_and, if_false]
  · intro i c c' hi1 hi2 hP hb
    obtain ⟨p1, p2, p3⟩ := hP
    beta_reduce at hb
    have inner := forLoop_inv w ((G.rows : Int) - w) _
      (fun j (d : Mat F) => d.rows = G.rows ∧ d.cols = G.cols ∧
        ∀ row col : Nat, d.data row col =
          if ((w ≤ col ∧ (col : Int) < i ∧ w ≤ row ∧ (row : Int) < G.rows - w) ∨
              ((col : Int) = i ∧ w ≤ row ∧ (row : Int) < j)) ∧
              M.at? row col ≠ some 0 then
            windowValue fp G (w.tdiv 2) col row
          else 0)
      _ _ ?_ ?_ hb
    · beta_reduce at inner
      obtain ⟨i1, i2, i3⟩ := inner
      refine ⟨i1, i2, ?_⟩
      intro row col
      rw [i3 row col]
      have e : ((w ≤ col ∧ (col : Int) < i ∧ w ≤ row ∧ (row : Int) < G.rows - w) ∨
          ((col : Int) = i ∧ w ≤ row ∧ (row : Int) < max w ((G.rows : Int) - w))) ↔
          (w ≤ col ∧ (col : Int) < i + 1 ∧ w ≤ row ∧ (row : Int) < G.rows - w) := by
        omega
      simp only [e]
    · refine ⟨p1, p2, ?_⟩
      intro row col
      rw [p3 row col]
      have e : ((w ≤ col ∧ (col : Int) < i ∧ w ≤ row ∧ (row : Int) < G.rows - w) ∨
          ((col : Int) = i ∧ w ≤ row ∧ (row : Int) < w)) ↔
          (w ≤ col ∧ (col : Int) < i ∧ w ≤ row ∧ (row : Int) < G.rows - w) := by
        omega
      simp only [e]
    · intro j d d' hj1 hj2 hQ hstep
      obtain ⟨q1, q2, q3⟩ := hQ
      obtain ⟨s1, s2, s3⟩ := confidenceStep_spec fp G M _ i j d d' hstep
      refine ⟨s1.trans q1, s2.trans q2, ?_⟩
      intro row col
      rw [s3 row col, q3 row col]
      by_cases hrc : (row : Int) = j ∧ (col : Int) = i
      · obtain ⟨hr, hcl⟩ := hrc
        subst hr hcl
        have e1 : ((w ≤ (col : Int) ∧ (col : Int) < col ∧ w ≤ (row : Int) ∧
            (row : Int) < G.rows - w) ∨
            ((col : Int) = col ∧ w ≤ (row : Int) ∧ (row : Int) < row + 1)) := by omega
        have e2 : ¬ ((w ≤ (col : Int) ∧ (col : Int) < col ∧ w ≤ (row : Int) ∧
            (row : Int) < G.rows - w) ∨
            ((col : Int) = col ∧ w ≤ (row : Int) ∧ (row : Int) < row)) := by omega
        by_cases hm : M.at? (row : Int) (col : Int) ≠ some 0
        · rw [if_pos ⟨rfl, rfl, hm⟩, if_pos ⟨e1, hm⟩]
        · rw [if_neg (fun hh => hm hh.2.2), if_neg (fun hh => e2 hh.1),
            if_neg (fun hh => hm hh.2)]
      · have e1 : ¬ ((row : Int) = j ∧ (col : Int) = i ∧ M.at? j i ≠ some 0) :=
          fun hh => hrc ⟨hh.1, hh.2.1⟩
        have e2 : ((w ≤ col ∧ (col : Int) < i ∧ w ≤ row ∧ (row : Int) < G.rows - w) ∨
            ((col : Int) = i ∧ w ≤ row ∧ (row : Int) < j + 1)) ↔
            ((w ≤ col ∧ (col : Int) < i ∧ w ≤ row ∧ (row : Int) < G.rows - w) ∨
            ((col : Int) = i ∧ w ≤ row ∧ (row : Int) < j)) := by
          omega
        simp only [e1, e2, if_false]

/-- With a mask of the size of the gradient matrix and a width `≥ 0`, every access of
`computeGradientConfidence` is inside its matrix, so a map is returned. -/
theorem computeGradientConfidence_total (fp : Rounding F) (G : Mat Vec2b) (w : Int)
    (M : Mat uchar) (hr : M.rows = G.rows) (hc : M.cols = G.cols) (hw : 0 ≤ w) :
    ∃ R : Mat F, computeGradientConfidence fp G w M = some R := by
  unfold computeGradientConfidence
  rw [Mat.zeros_natCast]
  simp only [Option.some_bind]
  have hdiv : w.tdiv 2 = w / 2 := Int.tdiv_eq_ediv hw (by decide)
  obtain ⟨R, hR, _⟩ := forLoop_total w ((G.cols : Int) - w)
    (fun x (confidence : Mat F) =>
      forLoop w ((G.rows : Int) - w) (fun y (confidence : Mat F) =>
        confidenceStep fp G M (w.tdiv 2) x y confidence) confidence)
    (fun _ (c : Mat F) => c.rows = G.rows ∧ c.cols = G.cols)
    ⟨G.rows, G.cols, fun _ _ => 0⟩ ⟨rfl, rfl⟩
    (by
      intro i c hi1 hi2 hP
      obtain ⟨d, hd, hQ⟩ := forLoop_total w ((G.rows : Int) - w)
        (fun y (confidence : Mat F) => confidenceStep fp G M (w.tdiv 2) i y confidence)
        (fun _ (c : Mat F) => c.rows = G.rows ∧ c.cols = G.cols) c hP
        (by
          intro j d hj1 hj2 hQ
          obtain ⟨q1, q2⟩ := hQ
          obtain ⟨d', hd'⟩ := confidenceStep_total fp G M (w.tdiv 2) i j d
            (by omega) (by omega)
            (by
              intro dx dy h1 h2 h3 h4
              rw [hdiv] at h1 h2 h3 h4
              omega)
          obtain ⟨s1, s2, _⟩ := confidenceStep_spec fp G M _ i j d d' hd'
          exact ⟨d', hd', s1.trans q1, s2.trans q2⟩)
      exact ⟨d, hd, hQ⟩)
  exact ⟨R, hR⟩

/-- With a negative width the first mask access, at `(width, width)`, is outside the
mask: the call has no defined result. -/
theorem computeGradientConfidence_neg (fp : Rounding F) (G : Mat Vec2b) (w : Int)
    (M : Mat uchar) (hw : w < 0) : computeGradientConfidence fp G w M = (none : Option (Mat F)) := by
  unfold computeGradientConfidence
  rw [Mat.zeros_natCast]
  simp only [Option.some_bind]
  apply forLoop_first_none _ _ _ _ (by omega)
  apply forLoop_first_none _ _ _ _ (by omega)
  unfold confidenceStep
  rw [Mat.at?_outside M w w (by omega)]
  rfl

/-- Without rounding and with a width `≥ 0`, every returned map holds the window ratio at
each visited cell whose mask is non-zero, and `0` elsewhere. -/
theorem computeGradientConfidence_spec_ideal (sqrt : F → F) (G : Mat Vec2b) (w : Int)
    (M : Mat uchar) (R : Mat F) (hw : 0 ≤ w)
    (h : computeGradientConfidence (Rounding.ideal sqrt) G w M = some R) :
    R.rows = G.rows ∧ R.cols = G.cols ∧
      ∀ row col : Nat, R.data row col =
        if visited G w row col ∧ M.at? row col ≠ some 0 then
          windowRatio sqrt G (w.tdiv 2) col row
        else 0 := by
  obtain ⟨h1, h2, hdata⟩ := computeGradientConfidence_spec (Rounding.ideal sqrt) G w M R h
  refine ⟨h1, h2, ?_⟩
  intro row col
  rw [hdata row col]
  by_cases hv : visited G w row col ∧ M.at? row col ≠ some 0
  · rw [if_pos hv, if_pos hv]
    apply windowValue_ideal
    have hdiv : w.tdiv 2 = w / 2 := Int.tdiv_eq_ediv hw (by decide)
    have hv' := hv.1
    unfold visited at hv'
    intro dx dy d1 d2 d3 d4
    rw [hdiv] at d1 d2 d3 d4
    omega
  · rw [if_neg hv, if_neg hv]

end WindowLoops


/-! ## The ratio over the reals -/

theorem norm_real_eq_abs (a b : ℝ) : norm (Rounding.ideal Real.sqrt) a b = Complex.abs ⟨a, b⟩ := by
  rw [Complex.abs_apply, Complex.normSq_mk]
  rfl

theorem norm_real_nonneg (a b : ℝ) : 0 ≤ norm (Rounding.ideal Real.sqrt) a b :=
  Real.sqrt_nonneg _

/-- Triangle inequality for `norm`: the norm of a sum of vectors is at most the sum of
their norms. -/
theorem norm_real_sum_le {ι : Type} (s : Finset ι) (f g : ι → ℝ) :
    norm (Rounding.ideal Real.sqrt) (∑ i ∈ s, f i) (∑ i ∈ s, g i) ≤ ∑ i ∈ s, norm (Rounding.ideal Real.sqrt) (f i) (g i) := by
  simp only [norm_real_eq_abs]
  have key := Complex.abs.sum_le s (fun i => (⟨f i, g i⟩ : ℂ))
  have e : (∑ i ∈ s, (⟨f i, g i⟩ : ℂ)) = ⟨∑ i ∈ s, f i, ∑ i ∈ s, g i⟩ := by
    apply Complex.ext <;> simp
  rw [e] at key
  exact key

theorem windowNormSum_nonneg (G : Mat Vec2b) (h x y : Int) :
    0 ≤ windowNormSum Real.sqrt G h x y := by
  unfold windowNormSum
  exact Finset.sum_nonneg fun _ _ => Finset.sum_nonneg fun _ _ => norm_real_nonneg _ _

theorem windowNorm_le_normSum (G : Mat Vec2b) (h x y : Int) :
    norm (Rounding.ideal Real.sqrt) (windowSumX G h x y) (windowSumY G h x y) ≤
      windowNormSum Real.sqrt G h x y := by
  unfold windowSumX windowSumY windowNormSum
  refine le_trans (norm_real_sum_le _ _ _) ?_
  exact Finset.sum_le_sum fun dx _ => norm_real_sum_le _ _ _

theorem windowRatio_nonneg (G : Mat Vec2b) (h x y : Int) :
    0 ≤ windowRatio Real.sqrt G h x y := by
  unfold windowRatio
  have := windowNormSum_nonneg G h x y
  exact div_nonneg (norm_real_nonneg _ _) (by linarith)

theorem windowRatio_le_one (G : Mat Vec2b) (h x y : Int) :
    windowRatio Real.sqrt G h x y ≤ 1 := by
  unfold windowRatio
  have h0 := windowNormSum_nonneg G h x y
  have h1 := windowNorm_le_normSum G h x y
  rw [div_le_one (by linarith)]
  linarith

/-! ## Rounding to single and double precision -/

theorem pow2_pos (e : Int) : 0 < pow2 e := by
  unfold pow2
  split
  · positivity
  · positivity

theorem log2Aux_spec : ∀ (fuel n : Nat), 0 < n → n ≤ fuel →
    2 ^ log2Aux fuel n ≤ n ∧ n < 2 ^ (log2Aux fuel n + 1) := by
  intro fuel
  induction fuel with
  | zero => intro n h1 h2; omega
  | succ f ih =>
    intro n h1 h2
    unfold log2Aux
    split
    · have : n = 1 := by omega
      subst this
      simp
    · have h3 : 0 < n / 2 := Nat.div_pos (by omega) (by decide)
      have h4 : n / 2 ≤ f := by omega
      obtain ⟨a, b⟩ := ih (n / 2) h3 h4
      rw [pow_succ, pow_succ]
      constructor
      · omega
      · rw [pow_succ] at b
        omega

/-- The leading bit: `2 ^ floorLog2 n ≤ n < 2 ^ (floorLog2 n + 1)` for `n > 0`. -/
theorem floorLog2_spec (n : Nat) (hn : 0 < n) :
    2 ^ floorLog2 n ≤ n ∧ n < 2 ^ (floorLog2 n + 1) :=
  log2Aux_spec n n hn (le_refl _)

theorem pow2_eq_zpow (e : Int) : pow2 e = (2 : ℚ) ^ e := by
  unfold pow2
  split
  · rename_i h
    obtain ⟨n, rfl⟩ := Int.eq_ofNat_of_zero_le h
    simp
  · rename_i h
    obtain ⟨n, hn⟩ := Int.eq_ofNat_of_zero_le (show 0 ≤ -e by omega)
    have he : e = -(n : Int) := by omega
    subst he
    simp

/-- The binary exponent brackets the number: `2 ^ e ≤ |x| < 2 ^ (e + 1)`. -/
theorem binaryExponent_spec (x : ℚ) (hx : x ≠ 0) :
    pow2 (binaryExponent x) ≤ |x| ∧ |x| < pow2 (binaryExponent x + 1) := by
  have hnum : 0 < x.num.natAbs := Int.natAbs_pos.mpr (Rat.num_ne_zero.mpr hx)
  have hden : 0 < x.den := x.den_pos
  obtain ⟨a1, a2⟩ := floorLog2_spec _ hnum
  obtain ⟨b1, b2⟩ := floorLog2_spec _ hden
  have hd : (0 : ℚ) < x.den := by exact_mod_cast hden
  have habs : |x| = (x.num.natAbs : ℚ) / (x.den : ℚ) := by
    conv_lhs => rw [← Rat.num_div_den x]
    rw [abs_div, abs_of_pos hd, Nat.cast_natAbs, Int.cast_abs]
  have a1' : (2 : ℚ) ^ floorLog2 x.num.natAbs ≤ (x.num.natAbs : ℚ) := by exact_mod_cast a1
  have a2' : (x.num.natAbs : ℚ) < (2 : ℚ) ^ (floorLog2 x.num.natAbs + 1) := by exact_mod_cast a2
  have b1' : (2 : ℚ) ^ floorLog2 x.den ≤ (x.den : ℚ) := by exact_mod_cast b1
  have b2' : (x.den : ℚ) < (2 : ℚ) ^ (floorLog2 x.den + 1) := by exact_mod_cast b2
  set a := floorLog2 x.num.natAbs
  set b := floorLog2 x.den
  have hlow : (2 : ℚ) ^ ((a : Int) - b - 1) < |x| := by
    rw [habs, lt_div_iff₀ hd]
    have e : (2 : ℚ) ^ ((a : Int) - b - 1) * (2 : ℚ) ^ (b + 1) = (2 : ℚ) ^ a := by
      rw [← zpow_natCast (2 : ℚ) (b + 1), ← zpow_add₀ (by norm_num : (2 : ℚ) ≠ 0),
        ← zpow_natCast (2 : ℚ) a]
      congr 1
      push_cast
      ring
    calc (2 : ℚ) ^ ((a : Int) - b - 1) * (x.den : ℚ)
        < (2 : ℚ) ^ ((a : Int) - b - 1) * (2 : ℚ) ^ (b + 1) :=
          mul_lt_mul_of_pos_left b2' (by positivity)
      _ = (2 : ℚ) ^ a := e
      _ ≤ _ := a1'
  have hhigh : |x| < (2 : ℚ) ^ ((a : Int) - b + 1) := by
    rw [habs, div_lt_iff₀ hd]
    have e : (2 : ℚ) ^ ((a : Int) - b + 1) * (2 : ℚ) ^ b = (2 : ℚ) ^ (a + 1) := by
      rw [← zpow_natCast (2 : ℚ) b, ← zpow_add₀ (by norm_num : (2 : ℚ) ≠ 0),
        ← zpow_natCast (2 : ℚ) (a + 1)]
      congr 1
      push_cast
      ring
    calc (x.num.natAbs : ℚ) < (2 : ℚ) ^ (a + 1) := a2'
      _ = (2 : ℚ) ^ ((a : Int) - b + 1) * (2 : ℚ) ^ b := e.symm
      _ ≤ (2 : ℚ) ^ ((a : Int) - b + 1) * (x.den : ℚ) :=
          mul_le_mul_of_nonneg_left b1' (by positivity)
  unfold binaryExponent
  simp only [pow2_eq_zpow]
  split
  · rename_i h
    exact ⟨h, hhigh⟩
  · rename_i h
    refine ⟨le_of_lt hlow, ?_⟩
    have : (a : Int) - b - 1 + 1 = (a : Int) - b := by ring
    rw [this]
    exact not_le.mp h


/-- The rounded number is within half a unit in the last place of the exact one. -/
theorem roundTo_error (p : Nat) (x : ℚ) (hx : x ≠ 0) :
    |roundTo p x - x| ≤ pow2 (binaryExponent x + 1 - p) / 2 := by
  have hulp := pow2_pos (binaryExponent x + 1 - p)
  have hfl := Int.floor_le (|x| / pow2 (binaryExponent x + 1 - p))
  have hfl' := Int.lt_floor_add_one (|x| / pow2 (binaryExponent x + 1 - p))
  have hxq : |x| = |x| / pow2 (binaryExponent x + 1 - p) * pow2 (binaryExponent x + 1 - p) := by
    field_simp
  obtain ⟨m', hround, hm⟩ : ∃ m' : Int,
      roundTo p x = (if x < 0 then -1 else 1) * (m' : ℚ) * pow2 (binaryExponent x + 1 - p) ∧
        |(m' : ℚ) - |x| / pow2 (binaryExponent x + 1 - p)| ≤ 1 / 2 := by
    refine ⟨_, by unfold roundTo; rw [if_neg hx], ?_⟩
    rw [abs_le]
    split_ifs <;> push_cast <;> constructor <;> linarith
  rw [hround]
  have hcancel : |x| / pow2 (binaryExponent x + 1 - p) * pow2 (binaryExponent x + 1 - p) = |x| :=
    hxq.symm
  by_cases hneg : x < 0
  · rw [if_pos hneg]
    have e : -1 * (m' : ℚ) * pow2 (binaryExponent x + 1 - p) - x =
        -(((m' : ℚ) - |x| / pow2 (binaryExponent x + 1 - p)) *
          pow2 (binaryExponent x + 1 - p)) := by
      rw [sub_mul, hcancel, abs_of_neg hneg]
      ring
    rw [e, abs_neg, abs_mul, abs_of_pos hulp]
    calc _ ≤ 1 / 2 * pow2 (binaryExponent x + 1 - p) := mul_le_mul_of_nonneg_right hm hulp.le
      _ = _ := by ring
  · rw [if_neg hneg]
    have e : 1 * (m' : ℚ) * pow2 (binaryExponent x + 1 - p) - x =
        ((m' : ℚ) - |x| / pow2 (binaryExponent x + 1 - p)) *
          pow2 (binaryExponent x + 1 - p) := by
      rw [sub_mul, hcancel, abs_of_nonneg (not_lt.mp hneg)]
      ring
    rw [e, abs_mul, abs_of_pos hulp]
    calc _ ≤ 1 / 2 * pow2 (binaryExponent x + 1 - p) := mul_le_mul_of_nonneg_right hm hulp.le
      _ = _ := by ring

theorem isqrtBits_spec (n : Nat) : ∀ (k r : Nat), r * r ≤ n → n < (r + 2 ^ k) * (r + 2 ^ k) →
    isqrtBits n k r * isqrtBits n k r ≤ n ∧
      n < (isqrtBits n k r + 1) * (isqrtBits n k r + 1) := by
  intro k
  induction k with
  | zero =>
    intro r h1 h2
    simpa [isqrtBits] using ⟨h1, h2⟩
  | succ k ih =>
    intro r h1 h2
    unfold isqrtBits
    split
    · rename_i h
      apply ih _ h
      have : r + 2 ^ k + 2 ^ k = r + 2 ^ (k + 1) := by rw [pow_succ]; ring
      rw [this]
      exact h2
    · rename_i h
      exact ih r h1 (not_le.mp h)

/-- The integer square root: `isqrt n ^ 2 ≤ n < (isqrt n + 1) ^ 2`. -/
theorem isqrt_spec (n : Nat) : isqrt n * isqrt n ≤ n ∧ n < (isqrt n + 1) * (isqrt n + 1) := by
  unfold isqrt
  apply isqrtBits_spec
  · simp
  · rcases Nat.eq_zero_or_pos n with h | h
    · subst h
      simp
    · obtain ⟨_, h2⟩ := floorLog2_spec n h
      have h3 : floorLog2 n + 1 ≤ 2 * (floorLog2 n / 2 + 1) := by omega
      calc n < 2 ^ (floorLog2 n + 1) := h2
        _ ≤ 2 ^ (2 * (floorLog2 n / 2 + 1)) := Nat.pow_le_pow_right (by decide) h3
        _ = (0 + 2 ^ (floorLog2 n / 2 + 1)) * (0 + 2 ^ (floorLog2 n / 2 + 1)) := by
          rw [zero_add, two_mul, pow_add]


/-- The rounded number is an integer multiple of the unit in the last place. -/
theorem roundTo_grid (p : Nat) (x : ℚ) :
    ∃ m : Int, roundTo p x = (m : ℚ) * pow2 (binaryExponent x + 1 - p) := by
  by_cases hx : x = 0
  · exact ⟨0, by simp [roundTo, hx]⟩
  · obtain ⟨m', hround⟩ : ∃ m' : Int,
        roundTo p x = (if x < 0 then -1 else 1) * (m' : ℚ) * pow2 (binaryExponent x + 1 - p) :=
      ⟨_, by unfold roundTo; rw [if_neg hx]⟩
    by_cases hneg : x < 0
    · exact ⟨-m', by rw [hround, if_pos hneg]; push_cast; ring⟩
    · exact ⟨m', by rw [hround, if_neg hneg]; ring⟩

/-- The rounded square root is within half a unit in the last place of the square
root. -/
theorem sqrtRound_error (p : Nat) (x : ℚ) (hx : 0 < x) :
    |((sqrtRound p x : ℚ) : ℝ) - Real.sqrt (x : ℝ)| ≤
      ((pow2 (-((p : Int) - 1 - binaryExponent x / 2)) : ℚ) : ℝ) / 2 := by
  have hk := pow2_pos ((p : Int) - 1 - binaryExponent x / 2)
  have hk2 : pow2 (2 * ((p : Int) - 1 - binaryExponent x / 2)) =
      pow2 ((p : Int) - 1 - binaryExponent x / 2) * pow2 ((p : Int) - 1 - binaryExponent x / 2) := by
    rw [pow2_eq_zpow, pow2_eq_zpow, ← zpow_add₀ (by norm_num : (2 : ℚ) ≠ 0), two_mul]
  have hkinv : pow2 (-((p : Int) - 1 - binaryExponent x / 2)) =
      (pow2 ((p : Int) - 1 - binaryExponent x / 2))⁻¹ := by
    rw [pow2_eq_zpow, pow2_eq_zpow, zpow_neg]
  have hdef : sqrtRound p x =
      (if x * pow2 (2 * ((p : Int) - 1 - binaryExponent x / 2)) <
          ((isqrt ⌊x * pow2 (2 * ((p : Int) - 1 - binaryExponent x / 2))⌋.toNat : ℚ) + 1 / 2) *
            ((isqrt ⌊x * pow2 (2 * ((p : Int) - 1 - binaryExponent x / 2))⌋.toNat : ℚ) + 1 / 2)
        then (isqrt ⌊x * pow2 (2 * ((p : Int) - 1 - binaryExponent x / 2))⌋.toNat : ℚ)
        else if
          ((isqrt ⌊x * pow2 (2 * ((p : Int) - 1 - binaryExponent x / 2))⌋.toNat : ℚ) + 1 / 2) *
            ((isqrt ⌊x * pow2 (2 * ((p : Int) - 1 - binaryExponent x / 2))⌋.toNat : ℚ) + 1 / 2) <
            x * pow2 (2 * ((p : Int) - 1 - binaryExponent x / 2))
        then (isqrt ⌊x * pow2 (2 * ((p : Int) - 1 - binaryExponent x / 2))⌋.toNat : ℚ) + 1
        else if isqrt ⌊x * pow2 (2 * ((p : Int) - 1 - binaryExponent x / 2))⌋.toNat % 2 = 0
        then (isqrt ⌊x * pow2 (2 * ((p : Int) - 1 - binaryExponent x / 2))⌋.toNat : ℚ)
        else (isqrt ⌊x * pow2 (2 * ((p : Int) - 1 - binaryExponent x / 2))⌋.toNat : ℚ) + 1) *
        pow2 (-((p : Int) - 1 - binaryExponent x / 2)) := by
    unfold sqrtRound
    rw [if_neg (not_le.mpr hx)]
  rw [hdef, hkinv, hk2]
  generalize pow2 ((p : Int) - 1 - binaryExponent x / 2) = u at hk
  have hscaled : 0 < x * (u * u) := by positivity
  obtain ⟨h1, h2⟩ := isqrt_spec ⌊x * (u * u)⌋.toNat
  generalize isqrt ⌊x * (u * u)⌋.toNat = m at h1 h2
  have hN : ((⌊x * (u * u)⌋.toNat : Nat) : ℚ) = ((⌊x * (u * u)⌋ : Int) : ℚ) := by
    have h := Int.toNat_of_nonneg (Int.floor_nonneg.mpr hscaled.le)
    calc ((⌊x * (u * u)⌋.toNat : Nat) : ℚ) = (((⌊x * (u * u)⌋.toNat : Nat) : Int) : ℚ) := by
          push_cast; rfl
      _ = _ := by rw [h]
  have hlow : (m : ℚ) * m ≤ x * (u * u) := by
    calc (m : ℚ) * m ≤ ((⌊x * (u * u)⌋.toNat : Nat) : ℚ) := by exact_mod_cast h1
      _ = _ := hN
      _ ≤ _ := Int.floor_le _
  have hhigh : x * (u * u) < ((m : ℚ) + 1) * (m + 1) := by
    have h2' : ⌊x * (u * u)⌋.toNat + 1 ≤ (m + 1) * (m + 1) := h2
    calc x * (u * u) < ((⌊x * (u * u)⌋ : Int) : ℚ) + 1 := Int.lt_floor_add_one _
      _ = ((⌊x * (u * u)⌋.toNat : Nat) : ℚ) + 1 := by rw [hN]
      _ ≤ _ := by exact_mod_cast h2'
  have hm0 : (0 : ℚ) ≤ m := Nat.cast_nonneg _
  -- the chosen significand is within one half of the scaled root
  obtain ⟨m', hround, hlo, hhi, hm'⟩ : ∃ m' : ℚ,
      (if x * (u * u) < ((m : ℚ) + 1 / 2) * ((m : ℚ) + 1 / 2) then (m : ℚ)
        else if ((m : ℚ) + 1 / 2) * ((m : ℚ) + 1 / 2) < x * (u * u) then (m : ℚ) + 1
        else if m % 2 = 0 then (m : ℚ) else (m : ℚ) + 1) = m' ∧
      (m' - 1 / 2 ≤ 0 ∨ (m' - 1 / 2) * (m' - 1 / 2) ≤ x * (u * u)) ∧
      x * (u * u) ≤ (m' + 1 / 2) * (m' + 1 / 2) ∧ 0 ≤ m' := by
    refine ⟨_, rfl, ?_⟩
    split_ifs with c1 c2 c3
    · refine ⟨?_, le_of_lt c1, hm0⟩
      by_cases hz : (m : ℚ) - 1 / 2 ≤ 0
      · exact Or.inl hz
      · right; nlinarith
    · refine ⟨Or.inr ?_, ?_, by linarith⟩
      · have : (m : ℚ) + 1 - 1 / 2 = m + 1 / 2 := by ring
        rw [this]; exact le_of_lt c2
      · nlinarith
    · refine ⟨?_, not_lt.mp c2, hm0⟩
      by_cases hz : (m : ℚ) - 1 / 2 ≤ 0
      · exact Or.inl hz
      · right; nlinarith
    · refine ⟨Or.inr ?_, ?_, by linarith⟩
      · have : (m : ℚ) + 1 - 1 / 2 = m + 1 / 2 := by ring
        rw [this]; exact not_lt.mp c1
      · nlinarith
  rw [hround]
  have huR : (0 : ℝ) < (u : ℝ) := by exact_mod_cast hk
  have hsq : Real.sqrt (x : ℝ) = Real.sqrt ((x : ℝ) * ((u : ℝ) * u)) * (u : ℝ)⁻¹ := by
    rw [Real.sqrt_mul (by exact_mod_cast hx.le), Real.sqrt_mul_self huR.le]
    field_simp
  have hlo' : (m' : ℝ) - 1 / 2 ≤ Real.sqrt ((x : ℝ) * ((u : ℝ) * u)) := by
    rcases hlo with h | h
    · have h' := (Rat.cast_le (K := ℝ)).mpr h
      push_cast at h'
      exact le_trans h' (Real.sqrt_nonneg _)
    · have h' := (Rat.cast_le (K := ℝ)).mpr h
      push_cast at h'
      by_cases hz : (m' : ℝ) - 1 / 2 ≤ 0
      · exact le_trans hz (Real.sqrt_nonneg _)
      · apply Real.le_sqrt_of_sq_le
        rw [sq]
        exact h'
  have hhi' : Real.sqrt ((x : ℝ) * ((u : ℝ) * u)) ≤ (m' : ℝ) + 1 / 2 := by
    have h' := (Rat.cast_le (K := ℝ)).mpr hhi
    push_cast at h'
    have hm'' : (0 : ℝ) ≤ m' := by exact_mod_cast hm'
    apply Real.sqrt_le_iff.mpr
    refine ⟨by linarith, ?_⟩
    rw [sq]
    exact h'
  push_cast
  rw [hsq, ← sub_mul, abs_mul, abs_of_pos (inv_pos.mpr huR)]
  have : |(m' : ℝ) - Real.sqrt ((x : ℝ) * ((u : ℝ) * u))| ≤ 1 / 2 := by
    rw [abs_le]; constructor <;> linarith
  calc _ ≤ 1 / 2 * (u : ℝ)⁻¹ := mul_le_mul_of_nonneg_right this (inv_pos.mpr huR).le
    _ = _ := by ring

/-! ## Roundings that keep the sign -/

theorem roundTo_nonneg (p : Nat) (x : ℚ) (hx : 0 ≤ x) : 0 ≤ roundTo p x := by
  unfold roundTo
  split
  · exact le_refl _
  · have hulp := pow2_pos (binaryExponent x + 1 - p)
    have hq : 0 ≤ |x| / pow2 (binaryExponent x + 1 - p) := div_nonneg (abs_nonneg _) hulp.le
    have hm : (0 : ℚ) ≤ (⌊|x| / pow2 (binaryExponent x + 1 - p)⌋ : ℚ) := by
      exact_mod_cast Int.floor_nonneg.mpr hq
    have hsign : ¬ x < 0 := not_lt.mpr hx
    simp only [if_neg hsign, one_mul]
    refine mul_nonneg ?_ hulp.le
    split
    · exact hm
    · split
      · push_cast
        linarith
      · split
        · exact hm
        · push_cast
          linarith

theorem sqrtRound_nonneg (p : Nat) (x : ℚ) : 0 ≤ sqrtRound p x := by
  unfold sqrtRound
  split
  · exact le_refl _
  · refine mul_nonneg ?_ (pow2_pos _).le
    have hm : (0 : ℚ) ≤ (isqrt ⌊x * pow2 (2 * ((p : Int) - 1 - binaryExponent x / 2))⌋.toNat : ℚ) :=
      Nat.cast_nonneg _
    split
    · exact hm
    · split
      · linarith
      · split
        · exact hm
        · linarith

theorem Rounding.ieee754_keepsSign : Rounding.ieee754.keepsSign :=
  ⟨fun x hx => roundTo_nonneg 24 x hx, fun x hx => roundTo_nonneg 53 x hx,
    fun x _ => sqrtRound_nonneg 24 x⟩

theorem Rounding.ideal_keepsSign : (Rounding.ideal Real.sqrt).keepsSign :=
  ⟨fun _ hx => hx, fun _ hx => hx, fun x _ => Real.sqrt_nonneg x⟩

section KeepsSign

variable {F : Type} [LinearOrderedField F]

theorem norm_nonneg_of_keepsSign (fp : Rounding F) (hfp : fp.keepsSign) (a b : F) :
    0 ≤ norm fp a b := by
  unfold norm
  exact hfp.2.2 _ (hfp.1 _ (add_nonneg (hfp.1 _ (mul_self_nonneg a))
    (hfp.1 _ (mul_self_nonneg b))))

/-- With a rounding that keeps the sign, `innerSum` never gets negative. -/
theorem windowSums_innerSum_nonneg (fp : Rounding F) (hfp : fp.keepsSign) (G : Mat Vec2b)
    (r x y : Int) (acc : WindowAcc F) (h : windowSums fp G r x y = some acc) :
    0 ≤ acc.innerSum := by
  unfold windowSums forLoopLe at h
  refine forLoop_inv (r * -1) (r + 1) _ (fun _ (a : WindowAcc F) => 0 ≤ a.innerSum)
    _ _ (le_refl _) ?_ h
  intro j t t' _ _ hP hb
  refine forLoop_inv (r * -1) (r + 1) _ (fun _ (a : WindowAcc F) => 0 ≤ a.innerSum)
    _ _ hP ?_ hb
  intro k u u' _ _ hQ hb2
  beta_reduce at hb2
  cases hg : G.at? (y + k) (x + j) with
  | none => simp [hg] at hb2
  | some g =>
    simp only [hg, Option.some_bind, Option.some.injEq] at hb2
    subst hb2
    exact hfp.1 _ (add_nonneg hQ (norm_nonneg_of_keepsSign fp hfp _ _))

/-- With a rounding that keeps the sign, the value of a window is non-negative. -/
theorem windowValue_nonneg (fp : Rounding F) (hfp : fp.keepsSign) (G : Mat Vec2b)
    (r x y : Int) : 0 ≤ windowValue fp G r x y := by
  cases h : windowSums fp G r x y with
  | none => simp [windowValue, h]
  | some acc =>
    rw [windowValue_of_some fp G r x y acc h]
    have hs := windowSums_innerSum_nonneg fp hfp G r x y acc h
    unfold storedRatio
    refine hfp.1 _ (hfp.2.1 _ (div_nonneg (norm_nonneg_of_keepsSign fp hfp _ _)
      (hfp.2.1 _ (add_nonneg hs ?_))))
    norm_num

end KeepsSign

/-! ## Evaluation in single precision -/

/-- One more iteration in front of a loop whose rest is known. -/
theorem forLoopFrom_step {σ : Type} (body : Int → σ → Option σ) (n : Nat) (i : Int)
    (s s' : σ) (r : Option σ) (h : body i s = some s')
    (hrest : forLoopFrom body n (i + 1) s' = r) : forLoopFrom body (n + 1) i s = r := by
  rw [← hrest]
  show (body i s).bind (forLoopFrom body n (i + 1)) = _
  rw [h]
  rfl

/-- The window loops are the outer loop over the columns of the window. -/
theorem windowSums_eq_columns {F : Type} [DivisionRing F] (fp : Rounding F) (G : Mat Vec2b)
    (r x y : Int) :
    windowSums fp G r x y =
      forLoopLe (r * -1) r (windowColumn fp G r x y) { sum := (0, 0), innerSum := 0 } :=
  rfl

theorem WindowAcc.eq_of_map {F : Type} {o : Option (WindowAcc F)} {s : F × F} {i : F}
    (h : o.map (fun acc => (acc.sum, acc.innerSum)) = some (s, i)) : o = some ⟨s, i⟩ := by
  cases o with
  | none => simp at h
  | some acc =>
    obtain ⟨s', i'⟩ := acc
    simp only [Option.map_some', Option.some.injEq, Prod.mk.injEq] at h
    obtain ⟨h1, h2⟩ := h
    subst h1; subst h2; rfl

/-! The window of the uniform `(253, 254)` matrix around `(19, 19)` in IEEE arithmetic,
column by column: the accumulators after each of its 19 columns of 19 samples. -/

theorem field39_column_0 :
    windowColumn Rounding.ieee754 exampleField39 9 19 19 (-9)
        ⟨(0, 0), 0⟩ =
      some ⟨(4807, 4826), 13950103 / 2048⟩ :=
  WindowAcc.eq_of_map (by decide!)

theorem field39_column_1 :
    windowColumn Rounding.ieee754 exampleField39 9 19 19 (-9 + 1)
        ⟨(4807, 4826), 13950103 / 2048⟩ =
      some ⟨(9614, 9652), 13950103 / 1024⟩ :=
  WindowAcc.eq_of_map (by decide!)

theorem field39_column_2 :
    windowColumn Rounding.ieee754 exampleField39 9 19 19 (-9 + 1 + 1)
        ⟨(9614, 9652), 13950103 / 1024⟩ =
      some ⟨(14421, 14478), 10462577 / 512⟩ :=
  WindowAcc.eq_of_map (by decide!)

theorem field39_column_3 :
    windowColumn Rounding.ieee754 exampleField39 9 19 19 (-9 + 1 + 1 + 1)
        ⟨(14421, 14478), 10462577 / 512⟩ =
      some ⟨(19228, 19304), 13950103 / 512⟩ :=
  WindowAcc.eq_of_map (by decide!)

theorem field39_column_4 :
    windowColumn Rounding.ieee754 exampleField39 9 19 19 (-9 + 1 + 1 + 1 + 1)
        ⟨(19228, 19304), 13950103 / 512⟩ =
      some ⟨(24035, 24130), 4359407 / 128⟩ :=
  WindowAcc.eq_of_map (by decide!)

theorem field39_column_5 :
    windowColumn Rounding.ieee754 exampleField39 9 19 19 (-9 + 1 + 1 + 1 + 1 + 1)
        ⟨(24035, 24130), 4359407 / 128⟩ =
      some ⟨(28842, 28956), 10462577 / 256⟩ :=
  WindowAcc.eq_of_map (by decide!)

theorem field39_column_6 :
    windowColumn Rounding.ieee754 exampleField39 9 19 19 (-9 + 1 + 1 + 1 + 1 + 1 + 1)
        ⟨(28842, 28956), 10462577 / 256⟩ =
      some ⟨(33649, 33782), 3051585 / 64⟩ :=
  WindowAcc.eq_of_map (by decide!)

theorem field39_column_7 :
    windowColumn Rounding.ieee754 exampleField39 9 19 19 (-9 + 1 + 1 + 1 + 1 + 1 + 1 + 1)
        ⟨(33649, 33782), 3051585 / 64⟩ =
      some ⟨(38456, 38608), 13950103 / 256⟩ :=
  WindowAcc.eq_of_map (by decide!)

theorem field39_column_8 :
    windowColumn Rounding.ieee754 exampleField39 9 19 19 (-9 + 1 + 1 + 1 + 1 + 1 + 1 + 1 + 1)
        ⟨(38456, 38608), 13950103 / 256⟩ =
      some ⟨(43263, 43434), 7846933 / 128⟩ :=
  WindowAcc.eq_of_map (by decide!)

theorem field39_column_9 :
    windowColumn Rounding.ieee754 exampleField39 9 19 19 (-9 + 1 + 1 + 1 + 1 + 1 + 1 + 1 + 1 + 1)
        ⟨(43263, 43434), 7846933 / 128⟩ =
      some ⟨(48070, 48260), 8718811 / 128⟩ :=
  WindowAcc.eq_of_map (by decide!)

theorem field39_column_10 :
    windowColumn Rounding.ieee754 exampleField39 9 19 19 (-9 + 1 + 1 + 1 + 1 + 1 + 1 + 1 + 1 + 1 + 1)
        ⟨(48070, 48260), 8718811 / 128⟩ =
      some ⟨(52877, 53086), 9590683 / 128⟩ :=
  WindowAcc.eq_of_map (by decide!)

theorem field39_column_11 :
    windowColumn Rounding.ieee754 exampleField39 9 19 19 (-9 + 1 + 1 + 1 + 1 + 1 + 1 + 1 + 1 + 1 + 1 + 1)
        ⟨(52877, 53086), 9590683 / 128⟩ =
      some ⟨(57684, 57912), 10462555 / 128⟩ :=
  WindowAcc.eq_of_map (by decide!)

theorem field39_column_12 :
    windowColumn Rounding.ieee754 exampleField39 9 19 19 (-9 + 1 + 1 + 1 + 1 + 1 + 1 + 1 + 1 + 1 + 1 + 1 + 1)
        ⟨(57684, 57912), 10462555 / 128⟩ =
      some ⟨(62491, 62738), 11334427 / 128⟩ :=
  WindowAcc.eq_of_map (by decide!)

theorem field39_column_13 :
    windowColumn Rounding.ieee754 exampleField39 9 19 19 (-9 + 1 + 1 + 1 + 1 + 1 + 1 + 1 + 1 + 1 + 1 + 1 + 1 + 1)
        ⟨(62491, 62738), 11334427 / 128⟩ =
      some ⟨(67298, 67564), 12206299 / 128⟩ :=
  WindowAcc.eq_of_map (by decide!)

theorem field39_column_14 :
    windowColumn Rounding.ieee754 exampleField39 9 19 19 (-9 + 1 + 1 + 1 + 1 + 1 + 1 + 1 + 1 + 1 + 1 + 1 + 1 + 1 + 1)
        ⟨(67298, 67564), 12206299 / 128⟩ =
      some ⟨(72105, 72390), 13078171 / 128⟩ :=
  WindowAcc.eq_of_map (by decide!)

theorem field39_column_15 :
    windowColumn Rounding.ieee754 exampleField39 9 19 19 (-9 + 1 + 1 + 1 + 1 + 1 + 1 + 1 + 1 + 1 + 1 + 1 + 1 + 1 + 1 + 1)
        ⟨(72105, 72390), 13078171 / 128⟩ =
      some ⟨(76912, 77216), 13950043 / 128⟩ :=
  WindowAcc.eq_of_map (by decide!)

theorem field39_column_16 :
    windowColumn Rounding.ieee754 exampleField39 9 19 19 (-9 + 1 + 1 + 1 + 1 + 1 + 1 + 1 + 1 + 1 + 1 + 1 + 1 + 1 + 1 + 1 + 1)
        ⟨(76912, 77216), 13950043 / 128⟩ =
      some ⟨(81719, 82042), 14821915 / 128⟩ :=
  WindowAcc.eq_of_map (by decide!)

theorem field39_column_17 :
    windowColumn Rounding.ieee754 exampleField39 9 19 19 (-9 + 1 + 1 + 1 + 1 + 1 + 1 + 1 + 1 + 1 + 1 + 1 + 1 + 1 + 1 + 1 + 1 + 1)
        ⟨(81719, 82042), 14821915 / 128⟩ =
      some ⟨(86526, 86868), 15693787 / 128⟩ :=
  WindowAcc.eq_of_map (by decide!)

theorem field39_column_18 :
    windowColumn Rounding.ieee754 exampleField39 9 19 19 (-9 + 1 + 1 + 1 + 1 + 1 + 1 + 1 + 1 + 1 + 1 + 1 + 1 + 1 + 1 + 1 + 1 + 1 + 1)
        ⟨(86526, 86868), 15693787 / 128⟩ =
      some ⟨(91333, 91694), 16565659 / 128⟩ :=
  WindowAcc.eq_of_map (by decide!)

/-- In IEEE arithmetic the window of the uniform `(253, 254)` matrix around `(19, 19)`,
361 samples, accumulates `sum = (91333, 91694)` and `innerSum = 129419.2109375`. -/
theorem windowSums_field39 :
    windowSums Rounding.ieee754 exampleField39 9 19 19 =
      some ⟨(91333, 91694), 16565659 / 128⟩ := by
  have e : ∀ (f : Int → WindowAcc ℚ → Option (WindowAcc ℚ)) (s : WindowAcc ℚ),
      forLoopLe (9 * -1) 9 f s = forLoopFrom f 19 (-9) s := fun _ _ => rfl
  rw [windowSums_eq_columns, e]
  exact forLoopFrom_step _ 18 (-9) _ _ _ field39_column_0
    (forLoopFrom_step _ 17 (-9 + 1) _ _ _ field39_column_1
    (forLoopFrom_step _ 16 (-9 + 1 + 1) _ _ _ field39_column_2
    (forLoopFrom_step _ 15 (-9 + 1 + 1 + 1) _ _ _ field39_column_3
    (forLoopFrom_step _ 14 (-9 + 1 + 1 + 1 + 1) _ _ _ field39_column_4
    (forLoopFrom_step _ 13 (-9 + 1 + 1 + 1 + 1 + 1) _ _ _ field39_column_5
    (forLoopFrom_step _ 12 (-9 + 1 + 1 + 1 + 1 + 1 + 1) _ _ _ field39_column_6
    (forLoopFrom_step _ 11 (-9 + 1 + 1 + 1 + 1 + 1 + 1 + 1) _ _ _ field39_column_7
    (forLoopFrom_step _ 10 (-9 + 1 + 1 + 1 + 1 + 1 + 1 + 1 + 1) _ _ _ field39_column_8
    (forLoopFrom_step _ 9 (-9 + 1 + 1 + 1 + 1 + 1 + 1 + 1 + 1 + 1) _ _ _ field39_column_9
    (forLoopFrom_step _ 8 (-9 + 1 + 1 + 1 + 1 + 1 + 1 + 1 + 1 + 1 + 1) _ _ _ field39_column_10
    (forLoopFrom_step _ 7 (-9 + 1 + 1 + 1 + 1 + 1 + 1 + 1 + 1 + 1 + 1 + 1) _ _ _ field39_column_11
    (forLoopFrom_step _ 6 (-9 + 1 + 1 + 1 + 1 + 1 + 1 + 1 + 1 + 1 + 1 + 1 + 1) _ _ _ field39_column_12
    (forLoopFrom_step _ 5 (-9 + 1 + 1 + 1 + 1 + 1 + 1 + 1 + 1 + 1 + 1 + 1 + 1 + 1) _ _ _ field39_column_13
    (forLoopFrom_step _ 4 (-9 + 1 + 1 + 1 + 1 + 1 + 1 + 1 + 1 + 1 + 1 + 1 + 1 + 1 + 1) _ _ _ field39_column_14
    (forLoopFrom_step _ 3 (-9 + 1 + 1 + 1 + 1 + 1 + 1 + 1 + 1 + 1 + 1 + 1 + 1 + 1 + 1 + 1) _ _ _ field39_column_15
    (forLoopFrom_step _ 2 (-9 + 1 + 1 + 1 + 1 + 1 + 1 + 1 + 1 + 1 + 1 + 1 + 1 + 1 + 1 + 1 + 1) _ _ _ field39_column_16
    (forLoopFrom_step _ 1 (-9 + 1 + 1 + 1 + 1 + 1 + 1 + 1 + 1 + 1 + 1 + 1 + 1 + 1 + 1 + 1 + 1 + 1) _ _ _ field39_column_17
    (forLoopFrom_step _ 0 (-9 + 1 + 1 + 1 + 1 + 1 + 1 + 1 + 1 + 1 + 1 + 1 + 1 + 1 + 1 + 1 + 1 + 1 + 1) _ _ _ field39_column_18
    (rfl)))))))))))))))))))

/-- The norm of that sum is `129419.8828125`, above `innerSum + 0.5`: the cell holds
`8388619 / 8388608`. -/
theorem windowValue_field39 :
    windowValue Rounding.ieee754 exampleField39 ((19 : Int).tdiv 2) ((19 : Nat) : Int)
      ((19 : Nat) : Int) = 8388619 / 8388608 := by
  have e1 : (19 : Int).tdiv 2 = 9 := by decide
  have e2 : ((19 : Nat) : Int) = 19 := rfl
  rw [e1, e2, windowValue_of_some _ _ _ _ _ _ windowSums_field39]
  decide!

/-! ## Properties of the confidence map -/

/-- C1 (confidence range) fails as stated for the single-precision map: on the 39 x 39
gradient matrix with the sample `(253, 254)` everywhere, an all-non-zero mask and
`w = 19`, the cell `(19, 19)` holds `8388619 / 8388608 = 1.0000013...`, above 1. -/
theorem confidence_above_one :
    ∃ R : Mat ℚ,
      computeGradientConfidence Rounding.ieee754 exampleField39 19 exampleMask39 = some R ∧
        R.data 19 19 = 8388619 / 8388608 ∧ 1 < R.data 19 19 := by
  obtain ⟨R, hR⟩ := computeGradientConfidence_total Rounding.ieee754 exampleField39 19
    exampleMask39 rfl rfl (by decide)
  obtain ⟨_, _, hdata⟩ := computeGradientConfidence_spec Rounding.ieee754 _ _ _ R hR
  have hval : R.data 19 19 = 8388619 / 8388608 := by
    rw [hdata 19 19, if_pos ⟨by decide, by decide⟩]
    exact windowValue_field39
  refine ⟨R, hR, hval, ?_⟩
  rw [hval]
  norm_num

/-- C1 as amended: for every gradient matrix (samples as read), every mask of the same
dimensions and every width `w ≥ 0`, `computeGradientConfidence` returns a map; every
cell is `≥ 0` whatever the rounding, as long as it keeps the sign (IEEE single and
double precision do); and every cell is `≤ 1` when the arithmetic does not round (over
the reals). -/
theorem confidence_nonneg_and_ideal_range {F : Type} [LinearOrderedField F]
    (fp : Rounding F) (hfp : fp.keepsSign) (G : Mat Vec2b) (M : Mat uchar) (w : Int)
    (hr : M.rows = G.rows) (hc : M.cols = G.cols) (hw : 0 ≤ w) :
    (∃ R : Mat F, computeGradientConfidence fp G w M = some R ∧
      ∀ row col : Nat, 0 ≤ R.data row col) ∧
    ∃ R : Mat ℝ, computeGradientConfidence (Rounding.ideal Real.sqrt) G w M = some R ∧
      ∀ row col : Nat, 0 ≤ R.data row col ∧ R.data row col ≤ 1 := by
  constructor
  · obtain ⟨R, hR⟩ := computeGradientConfidence_total fp G w M hr hc hw
    obtain ⟨_, _, hdata⟩ := computeGradientConfidence_spec fp G w M R hR
    refine ⟨R, hR, ?_⟩
    intro row col
    rw [hdata row col]
    split
    · exact windowValue_nonneg fp hfp _ _ _ _
    · exact le_refl _
  · obtain ⟨R, hR⟩ := computeGradientConfidence_total (Rounding.ideal Real.sqrt) G w M
      hr hc hw
    obtain ⟨_, _, hdata⟩ := computeGradientConfidence_spec_ideal Real.sqrt G w M R hw hR
    refine ⟨R, hR, ?_⟩
    intro row col
    rw [hdata row col]
    split
    · exact ⟨windowRatio_nonneg _ _ _ _, windowRatio_le_one _ _ _ _⟩
    · exact ⟨le_refl _, zero_le_one⟩

theorem confidence_nonneg_and_ideal_range_witness :
    (Rounding.ieee754.keepsSign ∧ exampleMask39.rows = exampleField39.rows ∧
      exampleMask39.cols = exampleField39.cols ∧ (0 : Int) ≤ 19) ∧
    (∃ R : Mat ℚ,
      computeGradientConfidence Rounding.ieee754 exampleField39 19 exampleMask39 = some R ∧
        ∀ row col : Nat, 0 ≤ R.data row col) ∧
    ∃ R : Mat ℝ,
      computeGradientConfidence (Rounding.ideal Real.sqrt) exampleField39 19 exampleMask39 =
        some R ∧
      ∀ row col : Nat, 0 ≤ R.data row col ∧ R.data row col ≤ 1 :=
  ⟨⟨Rounding.ieee754_keepsSign, rfl, rfl, by decide⟩,
    confidence_nonneg_and_ideal_range Rounding.ieee754 Rounding.ieee754_keepsSign
      exampleField39 exampleMask39 19 rfl rfl (by decide)⟩

/-- C2 (the formula) on the matrix the caller passes, a two-channel `float` matrix, here
5 x 5 with the gradient `(1.0, 0.0)` everywhere, all-non-zero mask, `w = 1` (window of
one sample): at the visited pixels `(x, y) = (2, 2)` and `(1, 2)` the formula on the
gradient vectors gives `1 / (1 + 0.5) = 2 / 3`, but `at<Vec2b>` reads the bytes `(0, 0)`
and `(128, 63)` there, and the map holds `0` and `8359311 / 8388608 = 0.9965...`. -/
theorem formula_on_float_matrix_differs :
    (visited (readAsVec2b exampleUniformField) 1 2 2 ∧
      visited (readAsVec2b exampleUniformField) 1 2 1 ∧
      exampleMask.data 2 2 ≠ 0 ∧ exampleMask.data 2 1 ≠ 0) ∧
    ((readAsVec2b exampleUniformField).data 2 2 = (0, 0) ∧
      (readAsVec2b exampleUniformField).data 2 1 = (128, 63)) ∧
    (∃ R : Mat ℚ,
      computeGradientConfidence Rounding.ieee754 (readAsVec2b exampleUniformField) 1
        exampleMask = some R ∧
      R.data 2 2 = 0 ∧ R.data 2 1 = 8359311 / 8388608) ∧
    fieldRatio Real.sqrt exampleUniformField ((1 : Int) / 2) (2 : Nat) (2 : Nat) = 2 / 3 ∧
    fieldRatio Real.sqrt exampleUniformField ((1 : Int) / 2) (1 : Nat) (2 : Nat) = 2 / 3 := by
  have hv1 : binary32Value 0x3F800000 = 1 := by decide!
  have hv0 : binary32Value 0 = 0 := by decide!
  refine ⟨⟨by decide, by decide, by decide, by decide⟩, ⟨by decide, by decide⟩, ?_, ?_, ?_⟩
  · obtain ⟨R, hR⟩ := computeGradientConfidence_total Rounding.ieee754
      (readAsVec2b exampleUniformField) 1 exampleMask rfl rfl (by decide)
    obtain ⟨_, _, hdata⟩ := computeGradientConfidence_spec Rounding.ieee754 _ _ _ R hR
    refine ⟨R, hR, ?_, ?_⟩
    · rw [hdata 2 2, if_pos ⟨by decide, by decide⟩]
      decide!
    · rw [hdata 2 1, if_pos ⟨by decide, by decide⟩]
      decide!
  · simp [fieldRatio, fieldSumX, fieldSumY, fieldNormSum, fieldSample, exampleUniformField,
      norm, Rounding.ideal, hv1, hv0]
    norm_num
  · simp [fieldRatio, fieldSumX, fieldSumY, fieldNormSum, fieldSample, exampleUniformField,
      norm, Rounding.ideal, hv1, hv0]
    norm_num

/-- C3 (masked-out is zero): for every gradient matrix, mask and width `w`, whatever the
rounding of the arithmetic, where the mask is zero at `(y, x) = (row, col)` every map
`computeGradientConfidence` returns is zero there; and a map is returned when the mask
has the size of the gradient matrix and `w ≥ 0`. -/
theorem masked_out_is_zero {F : Type} [DivisionRing F] (fp : Rounding F) (G : Mat Vec2b)
    (M : Mat uchar) (w : Int) (row col : Nat)
    (hm : M.at? (row : Int) (col : Int) = some 0) :
    (∀ R : Mat F, computeGradientConfidence fp G w M = some R → R.data row col = 0) ∧
    (M.rows = G.rows → M.cols = G.cols → 0 ≤ w →
      ∃ R : Mat F, computeGradientConfidence fp G w M = some R ∧ R.data row col = 0) := by
  have key : ∀ R : Mat F, computeGradientConfidence fp G w M = some R →
      R.data row col = 0 := by
    intro R hR
    obtain ⟨_, _, hdata⟩ := computeGradientConfidence_spec fp G w M R hR
    rw [hdata row col, if_neg (fun hh => hh.2 hm)]
  refine ⟨key, ?_⟩
  intro hr hc hw
  obtain ⟨R, hR⟩ := computeGradientConfidence_total fp G w M hr hc hw
  exact ⟨R, hR, key R hR⟩

theorem masked_out_is_zero_witness :
    exampleMaskHoles.at? ((2 : Nat) : Int) ((3 : Nat) : Int) = some 0 ∧
    (∃ R : Mat ℚ,
      computeGradientConfidence Rounding.ieee754 exampleGradients 1 exampleMaskHoles =
        some R ∧ R.data 2 3 = 0) ∧
    ∃ R : Mat ℝ,
      computeGradientConfidence (Rounding.ideal Real.sqrt) exampleGradients 1
        exampleMaskHoles = some R ∧ R.data 2 3 = 0 :=
  ⟨by decide,
    (masked_out_is_zero Rounding.ieee754 exampleGradients exampleMaskHoles 1 2 3
      (by decide)).2 rfl rfl (by decide),
    (masked_out_is_zero (Rounding.ideal Real.sqrt) exampleGradients exampleMaskHoles 1 2 3
      (by decide)).2 rfl rfl (by decide)⟩

/-- C4 (border band is zero): for every gradient matrix of size `W x H`, every mask and
every width `w`, whatever the rounding of the arithmetic, at a pixel
`(x, y) = (col, row)` with `x < w` or `x ≥ W - w` or `y < w` or `y ≥ H - w` every map
`computeGradientConfidence` returns is zero, whatever the mask there; and a map is
returned when the mask has the size of the gradient matrix and `w ≥ 0`. -/
theorem border_band_is_zero {F : Type} [DivisionRing F] (fp : Rounding F) (G : Mat Vec2b)
    (M : Mat uchar) (w : Int) (row col : Nat)
    (hband : (col : Int) < w ∨ (G.cols : Int) - w ≤ col ∨ (row : Int) < w ∨
      (G.rows : Int) - w ≤ row) :
    (∀ R : Mat F, computeGradientConfidence fp G w M = some R → R.data row col = 0) ∧
    (M.rows = G.rows → M.cols = G.cols → 0 ≤ w →
      ∃ R : Mat F, computeGradientConfidence fp G w M = some R ∧ R.data row col = 0) := by
  have key : ∀ R : Mat F, computeGradientConfidence fp G w M = some R →
      R.data row col = 0 := by
    intro R hR
    obtain ⟨_, _, hdata⟩ := computeGradientConfidence_spec fp G w M R hR
    have hv : ¬ visited G w row col := by
      unfold visited
      omega
    rw [hdata row col, if_neg (fun hh => hv hh.1)]
  refine ⟨key, ?_⟩
  intro hr hc hw
  obtain ⟨R, hR⟩ := computeGradientConfidence_total fp G w M hr hc hw
  exact ⟨R, hR, key R hR⟩

theorem border_band_is_zero_witness :
    (((1 : Nat) : Int) < 2 ∨ (exampleGradients.cols : Int) - 2 ≤ (1 : Nat) ∨
      ((2 : Nat) : Int) < 2 ∨ (exampleGradients.rows : Int) - 2 ≤ (2 : Nat)) ∧
    (∃ R : Mat ℚ,
      computeGradientConfidence Rounding.ieee754 exampleGradients 2 exampleMask = some R ∧
        R.data 2 1 = 0) ∧
    ∃ R : Mat ℝ,
      computeGradientConfidence (Rounding.ideal Real.sqrt) exampleGradients 2 exampleMask =
        some R ∧ R.data 2 1 = 0 :=
  ⟨by decide,
    (border_band_is_zero Rounding.ieee754 exampleGradients exampleMask 2 2 1
      (by decide)).2 rfl rfl (by decide),
    (border_band_is_zero (Rounding.ideal Real.sqrt) exampleGradients exampleMask 2 2 1
      (by decide)).2 rfl rfl (by decide)⟩

/-- C8 (mask gating at the centre only): for every gradient matrix and width `w`,
whatever the rounding of the arithmetic, two masks that agree at `(y, x) = (row, col)`
give maps with the same value there, however the masks differ elsewhere; and both maps
are returned when the masks have the size of the gradient matrix and `w ≥ 0`. -/
theorem mask_matters_at_centre_only {F : Type} [DivisionRing F] (fp : Rounding F)
    (G : Mat Vec2b) (w : Int) (M₁ M₂ : Mat uchar) (row col : Nat)
    (hm : M₁.at? (row : Int) (col : Int) = M₂.at? (row : Int) (col : Int)) :
    (∀ R₁ R₂ : Mat F, computeGradientConfidence fp G w M₁ = some R₁ →
      computeGradientConfidence fp G w M₂ = some R₂ →
        R₁.data row col = R₂.data row col) ∧
    (M₁.rows = G.rows → M₁.cols = G.cols → M₂.rows = G.rows → M₂.cols = G.cols → 0 ≤ w →
      ∃ R₁ R₂ : Mat F, computeGradientConfidence fp G w M₁ = some R₁ ∧
        computeGradientConfidence fp G w M₂ = some R₂ ∧
        R₁.data row col = R₂.data row col) := by
  have key : ∀ R₁ R₂ : Mat F, computeGradientConfidence fp G w M₁ = some R₁ →
      computeGradientConfidence fp G w M₂ = some R₂ →
        R₁.data row col = R₂.data row col := by
    intro R₁ R₂ h₁ h₂
    obtain ⟨_, _, d₁⟩ := computeGradientConfidence_spec fp G w M₁ R₁ h₁
    obtain ⟨_, _, d₂⟩ := computeGradientConfidence_spec fp G w M₂ R₂ h₂
    rw [d₁ row col, d₂ row col, hm]
  refine ⟨key, ?_⟩
  intro hr₁ hc₁ hr₂ hc₂ hw
  obtain ⟨R₁, h₁⟩ := computeGradientConfidence_total fp G w M₁ hr₁ hc₁ hw
  obtain ⟨R₂, h₂⟩ := computeGradientConfidence_total fp G w M₂ hr₂ hc₂ hw
  exact ⟨R₁, R₂, h₁, h₂, key R₁ R₂ h₁ h₂⟩

theorem mask_matters_at_centre_only_witness :
    (exampleMask.at? ((2 : Nat) : Int) ((2 : Nat) : Int) =
        exampleMaskHoles.at? ((2 : Nat) : Int) ((2 : Nat) : Int) ∧
      exampleMask.data 1 1 ≠ exampleMaskHoles.data 1 1) ∧
    (∃ R₁ R₂ : Mat ℚ,
      computeGradientConfidence Rounding.ieee754 exampleGradients 2 exampleMask = some R₁ ∧
      computeGradientConfidence Rounding.ieee754 exampleGradients 2 exampleMaskHoles =
        some R₂ ∧
      R₁.data 2 2 = R₂.data 2 2) ∧
    ∃ R₁ R₂ : Mat ℝ,
      computeGradientConfidence (Rounding.ideal Real.sqrt) exampleGradients 2 exampleMask =
        some R₁ ∧
      computeGradientConfidence (Rounding.ideal Real.sqrt) exampleGradients 2
        exampleMaskHoles = some R₂ ∧
      R₁.data 2 2 = R₂.data 2 2 :=
  ⟨⟨by decide, by decide⟩,
    (mask_matters_at_centre_only Rounding.ieee754 exampleGradients 2 exampleMask
      exampleMaskHoles 2 2 (by decide)).2 rfl rfl rfl rfl (by decide),
    (mask_matters_at_centre_only (Rounding.ideal Real.sqrt) exampleGradients 2 exampleMask
      exampleMaskHoles 2 2 (by decide)).2 rfl rfl rfl rfl (by decide)⟩

/-! ## The estimation driver -/

theorem estimateKernel.pyramid_eq (ext : External) (image : Mat Vec3b) :
    estimateKernel.pyramid ext image = some [image] := by
  simp [estimateKernel.pyramid, estimateKernel.level, forLoop, forLoopFrom]

/-- The driver allocates the kernel, computes one confidence map, at the odd width, on
the gradients of the image, and returns the kernel as allocated. -/
theorem estimateKernel_eq {F : Type} [DivisionRing F] (fp : Rounding F) (ext : External)
    (image : Mat Vec3b) (psfWidth : Int) (mask : Mat uchar) :
    estimateKernel fp ext image psfWidth mask =
      (Mat.zeros psfWidth psfWidth).bind fun (kernel : Mat uchar) =>
        (computeGradientConfidence fp (ext.gradients image)
          (estimateKernel.width psfWidth) mask).bind fun (_ : Mat F) => some kernel := by
  unfold estimateKernel
  rw [estimateKernel.pyramid_eq]
  cases hz : (Mat.zeros psfWidth psfWidth : Option (Mat uchar)) with
  | none => rfl
  | some kernel =>
    cases hg : computeGradientConfidence fp (ext.gradients image)
        (estimateKernel.width psfWidth) mask with
    | none => simp [forLoop, forLoopFrom, hg]
    | some R => simp [forLoop, forLoopFrom, hg]

theorem estimateKernel.width_of_nonneg (psfWidth : Int) (hp : 0 ≤ psfWidth) :
    estimateKernel.width psfWidth = if psfWidth % 2 = 0 then psfWidth + 1 else psfWidth := by
  unfold estimateKernel.width
  rw [Int.tmod_eq_emod hp (by decide)]

theorem estimateKernel.width_nonneg (psfWidth : Int) (hp : 0 ≤ psfWidth) :
    0 ≤ estimateKernel.width psfWidth := by
  rw [estimateKernel.width_of_nonneg psfWidth hp]
  split <;> omega

/-- On an image with a mask of its size, with size-keeping library calls and a
requested side `≥ 0`, the driver returns the `psfWidth x psfWidth` matrix of zeros. -/
theorem estimateKernel_returns {F : Type} [DivisionRing F] (fp : Rounding F)
    (ext : External) (hext : ext.keepsSize) (image : Mat Vec3b)
    (psfWidth : Int) (mask : Mat uchar) (hr : mask.rows = image.rows)
    (hc : mask.cols = image.cols) (hp : 0 ≤ psfWidth) :
    estimateKernel fp ext image psfWidth mask =
      some ⟨psfWidth.toNat, psfWidth.toNat, fun _ _ => 0⟩ := by
  rw [estimateKernel_eq]
  obtain ⟨R, hR⟩ := computeGradientConfidence_total fp (ext.gradients image)
    (estimateKernel.width psfWidth) mask (hr.trans (hext image).1.symm)
    (hc.trans (hext image).2.symm) (estimateKernel.width_nonneg psfWidth hp)
  simp [Mat.zeros, hp, hR]

theorem exampleExternal_keepsSize : exampleExternal.keepsSize :=
  fun _ => ⟨rfl, rfl⟩

theorem Mat.total_zeros (n m : Nat) : Mat.total ⟨n, m, fun _ _ => 0⟩ = 0 := by
  simp [Mat.total]

/-- C5 (kernel side parity) at the request `psfWidth = 4`, on a 12 x 12 image: the odd
width computed from the request is 5, yet the kernel returned has 4 rows and 4
columns, an even side (in IEEE arithmetic as in exact arithmetic). -/
theorem kernel_side_for_request_four :
    estimateKernel.width 4 = 5 ∧
    (∃ k : Mat uchar,
      estimateKernel (Rounding.ideal Real.sqrt) exampleExternal exampleImage 4
        exampleImageMask = some k ∧ k.rows = 4 ∧ k.cols = 4) ∧
    ∃ k : Mat uchar,
      estimateKernel Rounding.ieee754 exampleExternal exampleImage 4 exampleImageMask =
        some k ∧ k.rows = 4 ∧ k.cols = 4 :=
  ⟨by decide,
    ⟨_, estimateKernel_returns (Rounding.ideal Real.sqrt) exampleExternal
      exampleExternal_keepsSize exampleImage 4 exampleImageMask rfl rfl (by decide), rfl, rfl⟩,
    ⟨_, estimateKernel_returns Rounding.ieee754 exampleExternal exampleExternal_keepsSize
      exampleImage 4 exampleImageMask rfl rfl (by decide), rfl, rfl⟩⟩

/-- C6 (kernel normalization) fails as stated: on a 12 x 12 image with `psfWidth = 5`
the kernel returned does not sum to 1 within `1e-5` (in IEEE arithmetic as in exact
arithmetic). -/
theorem kernel_sum_not_one :
    (∃ k : Mat uchar,
      estimateKernel (Rounding.ideal Real.sqrt) exampleExternal exampleImage 5
        exampleImageMask = some k ∧ ¬ (|k.total - 1| ≤ 1 / 100000)) ∧
    ∃ k : Mat uchar,
      estimateKernel Rounding.ieee754 exampleExternal exampleImage 5 exampleImageMask =
        some k ∧ ¬ (|k.total - 1| ≤ 1 / 100000) := by
  constructor
  · refine ⟨_, estimateKernel_returns (Rounding.ideal Real.sqrt) exampleExternal
      exampleExternal_keepsSize exampleImage 5 exampleImageMask rfl rfl (by decide), ?_⟩
    rw [Mat.total_zeros]
    norm_num
  · refine ⟨_, estimateKernel_returns Rounding.ieee754 exampleExternal
      exampleExternal_keepsSize exampleImage 5 exampleImageMask rfl rfl (by decide), ?_⟩
    rw [Mat.total_zeros]
    norm_num

/-- C6 as amended: for every image, every mask of the image's size and every positive
`psfWidth` (the library calls keeping the image size), whatever the rounding of the
arithmetic, `estimateKernel` returns a kernel whose entries sum to 0. -/
theorem kernel_sum_is_zero {F : Type} [DivisionRing F] (fp : Rounding F) (ext : External)
    (hext : ext.keepsSize) (image : Mat Vec3b)
    (psfWidth : Int) (mask : Mat uchar) (hr : mask.rows = image.rows)
    (hc : mask.cols = image.cols) (hp : 0 < psfWidth) :
    ∃ k : Mat uchar,
      estimateKernel fp ext image psfWidth mask = some k ∧ k.total = 0 :=
  ⟨_, estimateKernel_returns fp ext hext image psfWidth mask hr hc (le_of_lt hp),
    Mat.total_zeros _ _⟩

theorem kernel_sum_is_zero_witness :
    (exampleExternal.keepsSize ∧ exampleImageMask.rows = exampleImage.rows ∧
      exampleImageMask.cols = exampleImage.cols ∧ (0 : Int) < 5) ∧
    (∃ k : Mat uchar,
      estimateKernel (Rounding.ideal Real.sqrt) exampleExternal exampleImage 5
        exampleImageMask = some k ∧ k.total = 0) ∧
    ∃ k : Mat uchar,
      estimateKernel Rounding.ieee754 exampleExternal exampleImage 5 exampleImageMask =
        some k ∧ k.total = 0 :=
  ⟨⟨exampleExternal_keepsSize, rfl, rfl, by decide⟩,
    kernel_sum_is_zero (Rounding.ideal Real.sqrt) exampleExternal exampleExternal_keepsSize
      exampleImage 5 exampleImageMask rfl rfl (by decide),
    kernel_sum_is_zero Rounding.ieee754 exampleExternal exampleExternal_keepsSize
      exampleImage 5 exampleImageMask rfl rfl (by decide)⟩

/-- C7 (window width): for every positive `psfWidth` the width `estimateKernel` passes
to `computeGradientConfidence` is `psfWidth` rounded up to the next odd integer: it is
odd, at least `psfWidth`, at most `psfWidth + 1`, and equal to `psfWidth` exactly when
`psfWidth` is odd; the one confidence map of the driver is computed at that width
(whatever the rounding of the arithmetic). -/
theorem window_width_is_next_odd {F : Type} [DivisionRing F] (fp : Rounding F)
    (psfWidth : Int) (hp : 0 < psfWidth) :
    estimateKernel.width psfWidth % 2 = 1 ∧
    psfWidth ≤ estimateKernel.width psfWidth ∧
    estimateKernel.width psfWidth ≤ psfWidth + 1 ∧
    (estimateKernel.width psfWidth = psfWidth ↔ psfWidth % 2 = 1) ∧
    ∀ (ext : External) (image : Mat Vec3b) (mask : Mat uchar),
      estimateKernel fp ext image psfWidth mask =
        (computeGradientConfidence fp (ext.gradients image)
          (estimateKernel.width psfWidth) mask).bind fun (_ : Mat F) =>
            some ⟨psfWidth.toNat, psfWidth.toNat, fun _ _ => 0⟩ := by
  have hw := estimateKernel.width_of_nonneg psfWidth (le_of_lt hp)
  refine ⟨?_, ?_, ?_, ?_, ?_⟩
  · rw [hw]; split <;> omega
  · rw [hw]; split <;> omega
  · rw [hw]; split <;> omega
  · rw [hw]; split <;> omega
  · intro ext image mask
    rw [estimateKernel_eq]
    simp [Mat.zeros, le_of_lt hp]

theorem window_width_is_next_odd_witness :
    (0 : Int) < 4 ∧ estimateKernel.width 4 % 2 = 1 ∧ (4 : Int) ≤ estimateKernel.width 4 ∧
      estimateKernel.width 4 ≤ 4 + 1 ∧ (estimateKernel.width 4 = 4 ↔ (4 : Int) % 2 = 1) ∧
      ∀ (ext : External) (image : Mat Vec3b) (mask : Mat uchar),
        estimateKernel (Rounding.ideal Real.sqrt) ext image 4 mask =
          (computeGradientConfidence (Rounding.ideal Real.sqrt) (ext.gradients image)
            (estimateKernel.width 4) mask).bind fun (_ : Mat ℝ) =>
              some ⟨(4 : Int).toNat, (4 : Int).toNat, fun _ _ => 0⟩ :=
  ⟨by decide, window_width_is_next_odd (Rounding.ideal Real.sqrt) 4 (by decide)⟩

/-- C9 (non-positive width is fatal) fails as stated at `w = 0`: on a 5 x 5 gradient
matrix with a 5 x 5 mask a confidence map is returned; its centre cell, whose window is
the single sample `(3, 4)`, holds `5 / 5.5` rounded to single precision,
`15252015 / 16777216 = 0.909090...`. -/
theorem zero_width_returns_map :
    ∃ R : Mat ℚ,
      computeGradientConfidence Rounding.ieee754 exampleGradients 0 exampleMask = some R ∧
        R.data 2 2 = 15252015 / 16777216 := by
  obtain ⟨R, hR⟩ := computeGradientConfidence_total Rounding.ieee754 exampleGradients 0
    exampleMask rfl rfl (by decide)
  obtain ⟨_, _, hdata⟩ := computeGradientConfidence_spec Rounding.ieee754 _ _ _ R hR
  refine ⟨R, hR, ?_⟩
  rw [hdata 2 2, if_pos ⟨by decide, by decide⟩]
  decide!

/-- C9 as amended: the confidence estimation is not fatal for `w = 0`: with a mask of the
size of the gradient matrix it returns a map. For a negative width `w` the code has no
guard either: its first mask read is at `(w, w)`, outside every mask, an access the
unchecked `at<>` leaves without a defined result, so that no defined map results
(whatever the rounding of the arithmetic). -/
theorem negative_width_reads_outside {F : Type} [DivisionRing F] (fp : Rounding F)
    (G : Mat Vec2b) (M : Mat uchar) (w : Int) :
    (w = 0 → M.rows = G.rows → M.cols = G.cols →
      ∃ R : Mat F, computeGradientConfidence fp G w M = some R) ∧
    (w < 0 → ¬ (0 ≤ w ∧ w < M.rows ∧ 0 ≤ w ∧ w < M.cols) ∧ M.at? w w = none ∧
      computeGradientConfidence fp G w M = (none : Option (Mat F))) :=
  ⟨fun h0 hr hc => computeGradientConfidence_total fp G w M hr hc (le_of_eq h0.symm),
    fun hw => ⟨by omega, Mat.at?_outside M w w (by omega),
      computeGradientConfidence_neg fp G w M hw⟩⟩

theorem negative_width_reads_outside_witness :
    ((0 : Int) = 0 ∧ exampleMask.rows = exampleGradients.rows ∧
      exampleMask.cols = exampleGradients.cols ∧
      ∃ R : Mat ℚ,
        computeGradientConfidence Rounding.ieee754 exampleGradients 0 exampleMask = some R) ∧
    ((-1 : Int) < 0 ∧ exampleMask.at? (-1) (-1) = none ∧
      computeGradientConfidence Rounding.ieee754 exampleGradients (-1) exampleMask =
        (none : Option (Mat ℚ))) :=
  ⟨⟨rfl, rfl, rfl,
      (negative_width_reads_outside Rounding.ieee754 exampleGradients exampleMask 0).1
        rfl rfl rfl⟩,
    ⟨by decide,
      ((negative_width_reads_outside Rounding.ieee754 exampleGradients exampleMask (-1)).2
        (by decide)).2⟩⟩

/-- C10 (small image is a precondition violation) fails as stated: a 1 x 1 image, smaller
than `2 * (w + 1) = 4` on both axes for `psfWidth = 1`, gets a kernel returned (in IEEE
arithmetic as in exact arithmetic). -/
theorem small_image_returns_kernel :
    ((examplePixel.cols : Int) < 2 * (estimateKernel.width 1 + 1) ∧
      (examplePixel.rows : Int) < 2 * (estimateKernel.width 1 + 1)) ∧
    (∃ k : Mat uchar,
      estimateKernel (Rounding.ideal Real.sqrt) exampleExternal examplePixel 1
        examplePixelMask = some k) ∧
    ∃ k : Mat uchar,
      estimateKernel Rounding.ieee754 exampleExternal examplePixel 1 examplePixelMask =
        some k :=
  ⟨⟨by decide, by decide⟩,
    ⟨_, estimateKernel_returns (Rounding.ideal Real.sqrt) exampleExternal
      exampleExternal_keepsSize examplePixel 1 examplePixelMask rfl rfl (by decide)⟩,
    ⟨_, estimateKernel_returns Rounding.ieee754 exampleExternal exampleExternal_keepsSize
      examplePixel 1 examplePixelMask rfl rfl (by decide)⟩⟩

/-- C10 as amended: for every image whose width or height is smaller than `2 * (w + 1)`,
`w` the odd width derived from a positive `psfWidth`, with a mask of the image's size
(the library calls keeping the image size), whatever the rounding of the arithmetic, no
violation is reported: `estimateKernel` returns its all-zero `psfWidth x psfWidth`
kernel, and the confidence map computed on the way is zero everywhere when the width or
the height is at most `2 * w`. -/
theorem small_image_no_violation {F : Type} [DivisionRing F] (fp : Rounding F)
    (ext : External) (hext : ext.keepsSize)
    (image : Mat Vec3b) (psfWidth : Int) (mask : Mat uchar) (hr : mask.rows = image.rows)
    (hc : mask.cols = image.cols) (hp : 0 < psfWidth)
    (_hsmall : (image.cols : Int) < 2 * (estimateKernel.width psfWidth + 1) ∨
      (image.rows : Int) < 2 * (estimateKernel.width psfWidth + 1)) :
    (∃ k : Mat uchar, estimateKernel fp ext image psfWidth mask = some k ∧
      k.rows = psfWidth.toNat ∧ k.cols = psfWidth.toNat ∧ ∀ r c : Nat, k.data r c = 0) ∧
    ∃ R : Mat F,
      computeGradientConfidence fp (ext.gradients image)
        (estimateKernel.width psfWidth) mask = some R ∧
      ((image.cols : Int) ≤ 2 * estimateKernel.width psfWidth ∨
        (image.rows : Int) ≤ 2 * estimateKernel.width psfWidth →
          ∀ r c : Nat, R.data r c = 0) := by
  refine ⟨⟨_, estimateKernel_returns fp ext hext image psfWidth mask hr hc (le_of_lt hp),
    rfl, rfl, fun _ _ => rfl⟩, ?_⟩
  obtain ⟨R, hR⟩ := computeGradientConfidence_total fp (ext.gradients image)
    (estimateKernel.width psfWidth) mask (hr.trans (hext image).1.symm)
    (hc.trans (hext image).2.symm) (estimateKernel.width_nonneg psfWidth (le_of_lt hp))
  obtain ⟨_, _, hdata⟩ := computeGradientConfidence_spec fp _ _ _ R hR
  refine ⟨R, hR, ?_⟩
  intro hle r c
  have hv : ¬ visited (ext.gradients image) (estimateKernel.width psfWidth) r c := by
    have h1 := (hext image).1
    have h2 := (hext image).2
    unfold visited
    omega
  rw [hdata r c, if_neg (fun hh => hv hh.1)]

theorem small_image_no_violation_witness :
    (exampleExternal.keepsSize ∧ examplePixelMask.rows = examplePixel.rows ∧
      examplePixelMask.cols = examplePixel.cols ∧ (0 : Int) < 1 ∧
      ((examplePixel.cols : Int) < 2 * (estimateKernel.width 1 + 1) ∨
        (examplePixel.rows : Int) < 2 * (estimateKernel.width 1 + 1))) ∧
    (∃ k : Mat uchar,
      estimateKernel Rounding.ieee754 exampleExternal examplePixel 1 examplePixelMask =
        some k ∧
      k.rows = (1 : Int).toNat ∧ k.cols = (1 : Int).toNat ∧ ∀ r c : Nat, k.data r c = 0) ∧
    ∃ R : Mat ℚ,
      computeGradientConfidence Rounding.ieee754 (exampleExternal.gradients examplePixel)
        (estimateKernel.width 1) examplePixelMask = some R ∧
      ((examplePixel.cols : Int) ≤ 2 * estimateKernel.width 1 ∨
        (examplePixel.rows : Int) ≤ 2 * estimateKernel.width 1 →
          ∀ r c : Nat, R.data r c = 0) :=
  ⟨⟨exampleExternal_keepsSize, rfl, rfl, by decide, Or.inl (by decide)⟩,
    small_image_no_violation Rounding.ieee754 exampleExternal exampleExternal_keepsSize
      examplePixel 1 examplePixelMask rfl rfl (by decide) (Or.inl (by decide))⟩

/-! ## The ratio at a visited pixel -/

/-- At a visited pixel with non-zero mask (mask of the size of the gradient matrix,
`w ≥ 0`) the returned map holds the window ratio for `h = ⌊w/2⌋`. -/
theorem confidence_at_visited (G : Mat Vec2b) (M : Mat uchar) (w : Int)
    (hr : M.rows = G.rows) (hc : M.cols = G.cols) (hw : 0 ≤ w) (row col : Nat)
    (hv : visited G w row col) (hm : M.data row col ≠ 0) :
    ∃ R : Mat ℝ, computeGradientConfidence (Rounding.ideal Real.sqrt) G w M = some R ∧
      R.data row col = windowRatio Real.sqrt G (w / 2) col row := by
  obtain ⟨R, hR⟩ := computeGradientConfidence_total (Rounding.ideal Real.sqrt) G w M hr hc hw
  obtain ⟨_, _, hdata⟩ := computeGradientConfidence_spec_ideal Real.sqrt G w M R hw hR
  refine ⟨R, hR, ?_⟩
  have hdiv : w.tdiv 2 = w / 2 := Int.tdiv_eq_ediv hw (by decide)
  have hv' := hv
  unfold visited at hv'
  have hat : M.at? (row : Int) (col : Int) = some (M.data row col) :=
    Mat.at?_natCast M row col (by omega) (by omega)
  rw [hdata row col, if_pos ⟨hv, by rw [hat]; simpa using hm⟩, hdiv]

theorem windowNormSum_add_half_pos (G : Mat Vec2b) (h x y : Int) :
    0 < windowNormSum Real.sqrt G h x y + 0.5 := by
  have := windowNormSum_nonneg G h x y
  norm_num
  linarith

theorem norm_real_zero : norm (Rounding.ideal Real.sqrt) 0 0 = 0 := by
  simp [norm, Rounding.ideal]

/-- For a factor `t ≥ 0`, `norm (t * u) (t * v) = t * norm u v`. -/
theorem norm_real_smul (t u v : ℝ) (ht : 0 ≤ t) :
    norm (Rounding.ideal Real.sqrt) (t * u) (t * v) = t * norm (Rounding.ideal Real.sqrt) u v := by
  simp only [norm, Rounding.ideal]
  rw [show t * u * (t * u) + t * v * (t * v) = t * t * (u * u + v * v) by ring,
    Real.sqrt_mul (mul_nonneg ht ht), Real.sqrt_mul_self ht]

theorem norm_real_eq_zero_iff (a b : ℝ) : norm (Rounding.ideal Real.sqrt) a b = 0 ↔ a = 0 ∧ b = 0 := by
  simp only [norm, Rounding.ideal]
  rw [Real.sqrt_eq_zero']
  constructor
  · intro h
    have ha := mul_self_nonneg a
    have hb := mul_self_nonneg b
    exact ⟨mul_self_eq_zero.mp (by linarith), mul_self_eq_zero.mp (by linarith)⟩
  · rintro ⟨rfl, rfl⟩
    simp

theorem windowSumX_eq_zero_iff (G : Mat Vec2b) (h x y : Int) :
    (windowSumX G h x y : ℝ) = 0 ↔
      ∀ dx ∈ Finset.Icc (-h) h, ∀ dy ∈ Finset.Icc (-h) h, (windowSample G x y dx dy).1 = 0 := by
  unfold windowSumX
  rw [Finset.sum_eq_zero_iff_of_nonneg
    (fun _ _ => Finset.sum_nonneg fun _ _ => Nat.cast_nonneg _)]
  refine forall₂_congr fun dx _ => ?_
  rw [Finset.sum_eq_zero_iff_of_nonneg (fun _ _ => Nat.cast_nonneg _)]
  refine forall₂_congr fun dy _ => ?_
  rw [Nat.cast_eq_zero]
  exact ⟨fun hz => Fin.ext hz, fun hz => by rw [hz]; rfl⟩

theorem windowSumY_eq_zero_iff (G : Mat Vec2b) (h x y : Int) :
    (windowSumY G h x y : ℝ) = 0 ↔
      ∀ dx ∈ Finset.Icc (-h) h, ∀ dy ∈ Finset.Icc (-h) h, (windowSample G x y dx dy).2 = 0 := by
  unfold windowSumY
  rw [Finset.sum_eq_zero_iff_of_nonneg
    (fun _ _ => Finset.sum_nonneg fun _ _ => Nat.cast_nonneg _)]
  refine forall₂_congr fun dx _ => ?_
  rw [Finset.sum_eq_zero_iff_of_nonneg (fun _ _ => Nat.cast_nonneg _)]
  refine forall₂_congr fun dy _ => ?_
  rw [Nat.cast_eq_zero]
  exact ⟨fun hz => Fin.ext hz, fun hz => by rw [hz]; rfl⟩

/-- The window ratio is zero exactly when every sample of the window is `(0, 0)`. -/
theorem windowRatio_eq_zero_iff (G : Mat Vec2b) (h x y : Int) :
    windowRatio Real.sqrt G h x y = 0 ↔
      ∀ dx ∈ Finset.Icc (-h) h, ∀ dy ∈ Finset.Icc (-h) h,
        windowSample G x y dx dy = (0, 0) := by
  unfold windowRatio
  rw [div_eq_zero_iff, norm_real_eq_zero_iff, windowSumX_eq_zero_iff, windowSumY_eq_zero_iff]
  have hpos := windowNormSum_add_half_pos G h x y
  constructor
  · rintro (⟨h1, h2⟩ | h0)
    · intro dx hdx dy hdy
      exact Prod.ext (h1 dx hdx dy hdy) (h2 dx hdx dy hdy)
    · exact absurd h0 (ne_of_gt hpos)
  · intro hall
    left
    exact ⟨fun dx hdx dy hdy => by rw [hall dx hdx dy hdy],
      fun dx hdx dy hdy => by rw [hall dx hdx dy hdy]⟩

/-- C12 (triangle-inequality tightness) fails as stated for the single-precision map: in
the 39 x 39 matrix with the sample `(253, 254)` everywhere every window sample is the
same vector, yet for `w = 19` the cell `(19, 19)` holds `8388619 / 8388608`, above 1, so
it is not `S / (S + 0.5)` for any `S ≥ 0`. -/
theorem parallel_window_not_exact :
    (visited exampleField39 19 19 19 ∧ exampleMask39.data 19 19 ≠ 0 ∧
      ∀ dx dy : Int, windowSample exampleField39 19 19 dx dy = (253, 254)) ∧
    ∃ R : Mat ℚ,
      computeGradientConfidence Rounding.ieee754 exampleField39 19 exampleMask39 = some R ∧
        R.data 19 19 = 8388619 / 8388608 ∧
        ∀ S : ℝ, 0 ≤ S → ((R.data 19 19 : ℚ) : ℝ) ≠ S / (S + 0.5) := by
  refine ⟨⟨by decide, by decide, fun _ _ => rfl⟩, ?_⟩
  obtain ⟨R, hR⟩ := computeGradientConfidence_total Rounding.ieee754 exampleField39 19
    exampleMask39 rfl rfl (by decide)
  obtain ⟨_, _, hdata⟩ := computeGradientConfidence_spec Rounding.ieee754 _ _ _ R hR
  have hval : R.data 19 19 = 8388619 / 8388608 := by
    rw [hdata 19 19, if_pos ⟨by decide, by decide⟩]
    exact windowValue_field39
  refine ⟨R, hR, hval, ?_⟩
  intro S hS
  rw [hval]
  have hlt : S / (S + 0.5) < 1 := by
    rw [div_lt_one (by linarith)]
    linarith
  have hgt : (1 : ℝ) < ((8388619 / 8388608 : ℚ) : ℝ) := by
    push_cast
    norm_num
  exact ne_of_gt (lt_trans hlt hgt)

/-- C12 as amended: at a visited in-mask pixel whose window samples, as read through
`at<Vec2b>`, are all non-negative multiples `t * (u, v)` of one direction, the map
computed without rounding (over the reals) holds exactly
`S / (S + 0.5) = 1 - 0.5 / (S + 0.5)`, `S` the sum of the sample norms over the window; so
that value exceeds `1 - ε` as soon as `S ≥ 0.5 / ε`. -/
theorem parallel_window_ideal_ratio (G : Mat Vec2b) (M : Mat uchar) (w : Int)
    (hr : M.rows = G.rows) (hc : M.cols = G.cols) (hw : 0 ≤ w) (row col : Nat)
    (hv : visited G w row col) (hm : M.data row col ≠ 0)
    (u v : ℝ) (t : Int → Int → ℝ)
    (hpar : ∀ dx ∈ Finset.Icc (-(w / 2)) (w / 2), ∀ dy ∈ Finset.Icc (-(w / 2)) (w / 2),
      0 ≤ t dx dy ∧ ((windowSample G col row dx dy).1.val : ℝ) = t dx dy * u ∧
        ((windowSample G col row dx dy).2.val : ℝ) = t dx dy * v) :
    ∃ R : Mat ℝ, computeGradientConfidence (Rounding.ideal Real.sqrt) G w M = some R ∧
      R.data row col = windowNormSum Real.sqrt G (w / 2) col row /
        (windowNormSum Real.sqrt G (w / 2) col row + 0.5) ∧
      R.data row col = 1 - 0.5 / (windowNormSum Real.sqrt G (w / 2) col row + 0.5) ∧
      ∀ ε : ℝ, 0 < ε → 0.5 / ε ≤ windowNormSum Real.sqrt G (w / 2) col row →
        1 - ε < R.data row col := by
  obtain ⟨R, hR, hval⟩ := confidence_at_visited G M w hr hc hw row col hv hm
  have hpos := windowNormSum_add_half_pos G (w / 2) col row
  have hX : (windowSumX G (w / 2) col row : ℝ) =
      (∑ dx ∈ Finset.Icc (-(w / 2)) (w / 2), ∑ dy ∈ Finset.Icc (-(w / 2)) (w / 2), t dx dy) * u := by
    unfold windowSumX
    rw [Finset.sum_mul]
    refine Finset.sum_congr rfl fun dx hdx => ?_
    rw [Finset.sum_mul]
    exact Finset.sum_congr rfl fun dy hdy => (hpar dx hdx dy hdy).2.1
  have hY : (windowSumY G (w / 2) col row : ℝ) =
      (∑ dx ∈ Finset.Icc (-(w / 2)) (w / 2), ∑ dy ∈ Finset.Icc (-(w / 2)) (w / 2), t dx dy) * v := by
    unfold windowSumY
    rw [Finset.sum_mul]
    refine Finset.sum_congr rfl fun dx hdx => ?_
    rw [Finset.sum_mul]
    exact Finset.sum_congr rfl fun dy hdy => (hpar dx hdx dy hdy).2.2
  have hS : windowNormSum Real.sqrt G (w / 2) col row =
      (∑ dx ∈ Finset.Icc (-(w / 2)) (w / 2), ∑ dy ∈ Finset.Icc (-(w / 2)) (w / 2), t dx dy) *
        norm (Rounding.ideal Real.sqrt) u v := by
    unfold windowNormSum
    rw [Finset.sum_mul]
    refine Finset.sum_congr rfl fun dx hdx => ?_
    rw [Finset.sum_mul]
    refine Finset.sum_congr rfl fun dy hdy => ?_
    obtain ⟨h0, h1, h2⟩ := hpar dx hdx dy hdy
    rw [h1, h2, norm_real_smul _ _ _ h0]
  have hT : 0 ≤ ∑ dx ∈ Finset.Icc (-(w / 2)) (w / 2),
      ∑ dy ∈ Finset.Icc (-(w / 2)) (w / 2), t dx dy :=
    Finset.sum_nonneg fun dx hdx => Finset.sum_nonneg fun dy hdy => (hpar dx hdx dy hdy).1
  have hnum : norm (Rounding.ideal Real.sqrt) (windowSumX G (w / 2) col row) (windowSumY G (w / 2) col row) =
      windowNormSum Real.sqrt G (w / 2) col row := by
    rw [hX, hY, hS, norm_real_smul _ _ _ hT]
  have hval' : R.data row col = windowNormSum Real.sqrt G (w / 2) col row /
      (windowNormSum Real.sqrt G (w / 2) col row + 0.5) := by
    rw [hval, windowRatio, hnum]
  have hone : R.data row col =
      1 - 0.5 / (windowNormSum Real.sqrt G (w / 2) col row + 0.5) := by
    rw [hval']
    field_simp
  refine ⟨R, hR, hval', hone, ?_⟩
  intro ε hε hS'
  rw [hone]
  have h1 : 0.5 ≤ windowNormSum Real.sqrt G (w / 2) col row * ε := (div_le_iff₀ hε).mp hS'
  have h2 : 0.5 / (windowNormSum Real.sqrt G (w / 2) col row + 0.5) < ε := by
    rw [div_lt_iff₀ hpos]
    have : (0 : ℝ) < ε * 0.5 := by positivity
    linarith [mul_comm ε (windowNormSum Real.sqrt G (w / 2) col row),
      mul_add ε (windowNormSum Real.sqrt G (w / 2) col row) 0.5]
  linarith

theorem exampleParallel_window :
    ∀ dx ∈ Finset.Icc (-((2 : Int) / 2)) (2 / 2), ∀ dy ∈ Finset.Icc (-((2 : Int) / 2)) (2 / 2),
      0 ≤ (if dy = 0 then (2 : ℝ) else 1) ∧
      ((windowSample exampleParallel (2 : Nat) (2 : Nat) dx dy).1.val : ℝ) =
        (if dy = 0 then (2 : ℝ) else 1) * 3 ∧
      ((windowSample exampleParallel (2 : Nat) (2 : Nat) dx dy).2.val : ℝ) =
        (if dy = 0 then (2 : ℝ) else 1) * 4 := by
  intro dx _ dy hdy
  have hb : -1 ≤ dy ∧ dy ≤ 1 := by simpa using hdy
  obtain ⟨h1, h2⟩ := hb
  have e6 : (((6 : uchar) : ℕ) : ℝ) = 6 := by
    rw [show ((6 : uchar) : ℕ) = 6 from rfl]; norm_num
  have e8 : (((8 : uchar) : ℕ) : ℝ) = 8 := by
    rw [show ((8 : uchar) : ℕ) = 8 from rfl]; norm_num
  have e3 : (((3 : uchar) : ℕ) : ℝ) = 3 := by
    rw [show ((3 : uchar) : ℕ) = 3 from rfl]; norm_num
  have e4 : (((4 : uchar) : ℕ) : ℝ) = 4 := by
    rw [show ((4 : uchar) : ℕ) = 4 from rfl]; norm_num
  by_cases h0 : dy = 0
  · subst h0
    have heq : (((2 : Nat) : Int) + 0).toNat = 2 := by decide
    simp only [windowSample, exampleParallel, if_pos heq, if_true]
    norm_num [e6, e8]
  · have hne : (((2 : Nat) : Int) + dy).toNat ≠ 2 := by omega
    simp only [windowSample, exampleParallel, if_neg hne, if_neg h0]
    norm_num [e3, e4]

theorem parallel_window_ideal_ratio_witness :
    (exampleMask.rows = exampleParallel.rows ∧ exampleMask.cols = exampleParallel.cols ∧
      (0 : Int) ≤ 2 ∧ visited exampleParallel 2 2 2 ∧ exampleMask.data 2 2 ≠ 0) ∧
    ∃ R : Mat ℝ, computeGradientConfidence (Rounding.ideal Real.sqrt) exampleParallel 2 exampleMask = some R ∧
      R.data 2 2 = windowNormSum Real.sqrt exampleParallel (2 / 2) (2 : Nat) (2 : Nat) /
        (windowNormSum Real.sqrt exampleParallel (2 / 2) (2 : Nat) (2 : Nat) + 0.5) ∧
      R.data 2 2 =
        1 - 0.5 / (windowNormSum Real.sqrt exampleParallel (2 / 2) (2 : Nat) (2 : Nat) + 0.5) ∧
      ∀ ε : ℝ, 0 < ε →
        0.5 / ε ≤ windowNormSum Real.sqrt exampleParallel (2 / 2) (2 : Nat) (2 : Nat) →
          1 - ε < R.data 2 2 :=
  ⟨⟨rfl, rfl, by decide, by decide, by decide⟩,
    parallel_window_ideal_ratio exampleParallel exampleMask 2 rfl rfl (by decide) 2 2 (by decide)
      (by decide) 3 4 (fun _ dy => if dy = 0 then 2 else 1) exampleParallel_window⟩

/-- C13 (cancellation) on the matrix the caller passes, a two-channel `float` matrix,
here 5 x 5 with the gradients `(1.0, 0.0)`, `(0.0, 0.0)`, `(-1.0, 0.0)` in columns 1, 2, 3,
all-non-zero mask, `w = 2`: in the 3 x 3 window of the visited pixel `(2, 2)` the
gradient vectors sum to the zero vector and their norms to `S = 6`, so the claim bounds
the cell by `0.5 / 6.5`; but `at<Vec2b>` reads the bytes `(128, 63)`, `(0, 0)`, `(0, 0)` in
these columns, which cannot cancel, and the map holds `16757639 / 16777216 = 0.9988...`. -/
theorem cancelling_float_matrix_near_one :
    (visited (readAsVec2b exampleCancelField) 2 2 2 ∧ exampleMask.data 2 2 ≠ 0) ∧
    ((fieldSumX exampleCancelField ((2 : Int) / 2) (2 : Nat) (2 : Nat) : ℝ) = 0 ∧
      (fieldSumY exampleCancelField ((2 : Int) / 2) (2 : Nat) (2 : Nat) : ℝ) = 0 ∧
      fieldNormSum Real.sqrt exampleCancelField ((2 : Int) / 2) (2 : Nat) (2 : Nat) = 6) ∧
    ((readAsVec2b exampleCancelField).data 2 1 = (128, 63) ∧
      (readAsVec2b exampleCancelField).data 2 2 = (0, 0) ∧
      (readAsVec2b exampleCancelField).data 2 3 = (0, 0)) ∧
    ∃ R : Mat ℚ,
      computeGradientConfidence Rounding.ieee754 (readAsVec2b exampleCancelField) 2
        exampleMask = some R ∧
      R.data 2 2 = 16757639 / 16777216 ∧ 0.5 / (6 + 0.5) < R.data 2 2 := by
  have hv1 : binary32Value 0x3F800000 = 1 := by decide!
  have hvm : binary32Value 0xBF800000 = -1 := by decide!
  have hv0 : binary32Value 0 = 0 := by decide!
  have hI : Finset.Icc (-1 : Int) 1 = {-1, 0, 1} := by decide
  refine ⟨⟨by decide, by decide⟩, ⟨?_, ?_, ?_⟩, ⟨by decide, by decide, by decide⟩, ?_⟩
  · simp [fieldSumX, fieldSample, exampleCancelField, hI, hv1, hvm, hv0]
  · simp [fieldSumY, fieldSample, exampleCancelField, hI, hv1, hvm, hv0]
  · simp [fieldNormSum, fieldSample, exampleCancelField, hI, hv1, hvm, hv0, norm,
      Rounding.ideal]
    norm_num
  · obtain ⟨R, hR⟩ := computeGradientConfidence_total Rounding.ieee754
      (readAsVec2b exampleCancelField) 2 exampleMask rfl rfl (by decide)
    obtain ⟨_, _, hdata⟩ := computeGradientConfidence_spec Rounding.ieee754 _ _ _ R hR
    have hval : R.data 2 2 = 16757639 / 16777216 := by
      rw [hdata 2 2, if_pos ⟨by decide, by decide⟩]
      decide!
    refine ⟨R, hR, hval, ?_⟩
    rw [hval]
    norm_num

/-- C16 (window reads are inside): with a mask of the size of the `W x H` gradient
matrix and `w ≥ 0`, for each visited centre `(x, y) = (col, row)` and each offset pair in
`-⌊w/2⌋..⌊w/2⌋` the index read is inside: `0 ≤ x + dx < W` and `0 ≤ y + dy < H`; so the
gradient read and the mask read return a value, the window loops return their sums and
the whole call returns a map (whatever the rounding of the arithmetic). -/
theorem window_reads_inside {F : Type} [DivisionRing F] (fp : Rounding F) (G : Mat Vec2b)
    (M : Mat uchar) (w : Int)
    (hr : M.rows = G.rows) (hc : M.cols = G.cols) (hw : 0 ≤ w) (row col : Nat)
    (hv : visited G w row col) (dx dy : Int)
    (hdx : -(w / 2) ≤ dx ∧ dx ≤ w / 2) (hdy : -(w / 2) ≤ dy ∧ dy ≤ w / 2) :
    (0 ≤ (col : Int) + dx ∧ (col : Int) + dx < G.cols ∧
      0 ≤ (row : Int) + dy ∧ (row : Int) + dy < G.rows) ∧
    G.at? ((row : Int) + dy) ((col : Int) + dx) = some (windowSample G col row dx dy) ∧
    M.at? (row : Int) (col : Int) = some (M.data row col) ∧
    (∃ acc : WindowAcc F, windowSums fp G (w.tdiv 2) col row = some acc) ∧
    ∃ R : Mat F, computeGradientConfidence fp G w M = some R := by
  have hv' := hv
  unfold visited at hv'
  have hdiv : w.tdiv 2 = w / 2 := Int.tdiv_eq_ediv hw (by decide)
  have hin : 0 ≤ (col : Int) + dx ∧ (col : Int) + dx < G.cols ∧
      0 ≤ (row : Int) + dy ∧ (row : Int) + dy < G.rows := by omega
  refine ⟨hin, ?_, ?_, ?_, ?_⟩
  · rw [Mat.at?_inside G _ _ ⟨hin.2.2.1, hin.2.2.2, hin.1, hin.2.1⟩]
    rfl
  · exact Mat.at?_natCast M row col (by omega) (by omega)
  · apply windowSums_total
    intro ex ey h1 h2 h3 h4
    rw [hdiv] at h1 h2 h3 h4
    omega
  · exact computeGradientConfidence_total fp G w M hr hc hw

theorem window_reads_inside_witness :
    (exampleMask.rows = exampleGradients.rows ∧ exampleMask.cols = exampleGradients.cols ∧
      (0 : Int) ≤ 2 ∧ visited exampleGradients 2 2 2 ∧
      (-((2 : Int) / 2) ≤ -1 ∧ (-1 : Int) ≤ 2 / 2) ∧ (-((2 : Int) / 2) ≤ 1 ∧ (1 : Int) ≤ 2 / 2)) ∧
    (0 ≤ ((2 : Nat) : Int) + -1 ∧ ((2 : Nat) : Int) + -1 < exampleGradients.cols ∧
      0 ≤ ((2 : Nat) : Int) + 1 ∧ ((2 : Nat) : Int) + 1 < exampleGradients.rows) ∧
    exampleGradients.at? (((2 : Nat) : Int) + 1) (((2 : Nat) : Int) + -1) =
      some (windowSample exampleGradients (2 : Nat) (2 : Nat) (-1) 1) ∧
    exampleMask.at? ((2 : Nat) : Int) ((2 : Nat) : Int) = some (exampleMask.data 2 2) ∧
    (∃ acc : WindowAcc ℚ,
      windowSums Rounding.ieee754 exampleGradients ((2 : Int).tdiv 2) (2 : Nat) (2 : Nat) =
        some acc) ∧
    ∃ R : Mat ℚ,
      computeGradientConfidence Rounding.ieee754 exampleGradients 2 exampleMask = some R :=
  ⟨⟨rfl, rfl, by decide, by decide, by decide, by decide⟩,
    window_reads_inside Rounding.ieee754 exampleGradients exampleMask 2 rfl rfl (by decide) 2 2 (by decide)
      (-1) 1 (by decide) (by decide)⟩

/-- C19 (no cancellation with 8-bit samples): with a mask of the size of the gradient
matrix and `w ≥ 0`, at every visited in-mask pixel the returned map is 0 if and only if
every gradient sample of the window is `(0, 0)`. -/
theorem zero_iff_flat_window (G : Mat Vec2b) (M : Mat uchar) (w : Int)
    (hr : M.rows = G.rows) (hc : M.cols = G.cols) (hw : 0 ≤ w) (row col : Nat)
    (hv : visited G w row col) (hm : M.data row col ≠ 0) :
    ∃ R : Mat ℝ, computeGradientConfidence (Rounding.ideal Real.sqrt) G w M = some R ∧
      (R.data row col = 0 ↔
        ∀ dx ∈ Finset.Icc (-(w / 2)) (w / 2), ∀ dy ∈ Finset.Icc (-(w / 2)) (w / 2),
          windowSample G col row dx dy = (0, 0)) := by
  obtain ⟨R, hR, hval⟩ := confidence_at_visited G M w hr hc hw row col hv hm
  refine ⟨R, hR, ?_⟩
  rw [hval]
  exact windowRatio_eq_zero_iff G _ _ _

theorem zero_iff_flat_window_witness :
    (exampleMask.rows = exampleGradients.rows ∧ exampleMask.cols = exampleGradients.cols ∧
      (0 : Int) ≤ 2 ∧ visited exampleGradients 2 2 2 ∧ exampleMask.data 2 2 ≠ 0) ∧
    ∃ R : Mat ℝ, computeGradientConfidence (Rounding.ideal Real.sqrt) exampleGradients 2 exampleMask = some R ∧
      (R.data 2 2 = 0 ↔
        ∀ dx ∈ Finset.Icc (-((2 : Int) / 2)) (2 / 2), ∀ dy ∈ Finset.Icc (-((2 : Int) / 2)) (2 / 2),
          windowSample exampleGradients (2 : Nat) (2 : Nat) dx dy = (0, 0)) :=
  ⟨⟨rfl, rfl, by decide, by decide, by decide⟩,
    zero_iff_flat_window exampleGradients exampleMask 2 rfl rfl (by decide) 2 2 (by decide)
      (by decide)⟩

/-! ## The kernel returned by the driver -/

theorem estimateKernel_some {F : Type} [DivisionRing F] (fp : Rounding F) (ext : External)
    (image : Mat Vec3b) (psfWidth : Int) (mask : Mat uchar) (k : Mat uchar)
    (h : estimateKernel fp ext image psfWidth mask = some k) :
    k = ⟨psfWidth.toNat, psfWidth.toNat, fun _ _ => 0⟩ := by
  rw [estimateKernel_eq] at h
  unfold Mat.zeros at h
  split at h
  · simp only [Option.some_bind] at h
    cases hg : computeGradientConfidence fp (ext.gradients image)
        (estimateKernel.width psfWidth) mask with
    | none => simp [hg] at h
    | some R =>
      simp only [hg, Option.some_bind, Option.some.injEq] at h
      exact h.symm
  · simp at h

/-- C18 (the returned kernel): for every image, mask and `psfWidth`, whatever the rounding
of the arithmetic, every kernel `estimateKernel` returns is the `psfWidth x psfWidth`
matrix whose entries are all zero, the same for every other image and mask; and a
kernel is returned for every `psfWidth ≥ 0` when the mask has the image's size (the
library calls keeping the image size). -/
theorem kernel_is_all_zero {F : Type} [DivisionRing F] (fp : Rounding F) (ext : External)
    (image : Mat Vec3b) (psfWidth : Int) (mask : Mat uchar) :
    (∀ k : Mat uchar, estimateKernel fp ext image psfWidth mask = some k →
      k.rows = psfWidth.toNat ∧ k.cols = psfWidth.toNat ∧ ∀ r c : Nat, k.data r c = 0) ∧
    (∀ (image' : Mat Vec3b) (mask' : Mat uchar) (k k' : Mat uchar),
      estimateKernel fp ext image psfWidth mask = some k →
      estimateKernel fp ext image' psfWidth mask' = some k' → k = k') ∧
    (ext.keepsSize → mask.rows = image.rows → mask.cols = image.cols → 0 ≤ psfWidth →
      ∃ k : Mat uchar, estimateKernel fp ext image psfWidth mask = some k ∧
        k.rows = psfWidth.toNat ∧ k.cols = psfWidth.toNat ∧ ∀ r c : Nat, k.data r c = 0) := by
  refine ⟨?_, ?_, ?_⟩
  · intro k hk
    rw [estimateKernel_some fp ext image psfWidth mask k hk]
    exact ⟨rfl, rfl, fun _ _ => rfl⟩
  · intro image' mask' k k' hk hk'
    rw [estimateKernel_some fp ext image psfWidth mask k hk,
      estimateKernel_some fp ext image' psfWidth mask' k' hk']
  · intro hext hr hc hp
    exact ⟨_, estimateKernel_returns fp ext hext image psfWidth mask hr hc hp, rfl, rfl,
      fun _ _ => rfl⟩

theorem kernel_is_all_zero_witness :
    (exampleExternal.keepsSize ∧ exampleImageMask.rows = exampleImage.rows ∧
      exampleImageMask.cols = exampleImage.cols ∧ (0 : Int) ≤ 4) ∧
    (∃ k : Mat uchar,
      estimateKernel (Rounding.ideal Real.sqrt) exampleExternal exampleImage 4
        exampleImageMask = some k ∧
        k.rows = (4 : Int).toNat ∧ k.cols = (4 : Int).toNat ∧ ∀ r c : Nat, k.data r c = 0) ∧
    ∃ k : Mat uchar,
      estimateKernel Rounding.ieee754 exampleExternal exampleImage 4 exampleImageMask =
        some k ∧
        k.rows = (4 : Int).toNat ∧ k.cols = (4 : Int).toNat ∧ ∀ r c : Nat, k.data r c = 0 :=
  ⟨⟨exampleExternal_keepsSize, rfl, rfl, by decide⟩,
    (kernel_is_all_zero (Rounding.ideal Real.sqrt) exampleExternal exampleImage 4
      exampleImageMask).2.2 exampleExternal_keepsSize rfl rfl (by decide),
    (kernel_is_all_zero Rounding.ieee754 exampleExternal exampleImage 4
      exampleImageMask).2.2 exampleExternal_keepsSize rfl rfl (by decide)⟩

/-! ## Minimum and maximum of a matrix -/

section MinMax

variable {F : Type} [LinearOrderedField F]

theorem foldl_min_le (as : List F) (a : F) :
    as.foldl min a ≤ a ∧ ∀ b ∈ as, as.foldl min a ≤ b := by
  induction as generalizing a with
  | nil => simp
  | cons x xs ih =>
    simp only [List.foldl_cons, List.mem_cons]
    obtain ⟨h1, h2⟩ := ih (min a x)
    refine ⟨le_trans h1 (min_le_left _ _), ?_⟩
    rintro b (rfl | hb)
    · exact le_trans h1 (min_le_right _ _)
    · exact h2 b hb

theorem foldl_min_mem (as : List F) (a : F) : as.foldl min a ∈ a :: as := by
  induction as generalizing a with
  | nil => simp
  | cons x xs ih =>
    simp only [List.foldl_cons]
    have h := ih (min a x)
    rcases List.mem_cons.mp h with h | h
    · rcases min_choice a x with hm | hm
      · rw [h, hm]; simp
      · rw [h, hm]; simp
    · exact List.mem_cons_of_mem _ (List.mem_cons_of_mem _ h)

theorem le_foldl_max (as : List F) (a : F) :
    a ≤ as.foldl max a ∧ ∀ b ∈ as, b ≤ as.foldl max a := by
  induction as generalizing a with
  | nil => simp
  | cons x xs ih =>
    simp only [List.foldl_cons, List.mem_cons]
    obtain ⟨h1, h2⟩ := ih (max a x)
    refine ⟨le_trans (le_max_left _ _) h1, ?_⟩
    rintro b (rfl | hb)
    · exact le_trans (le_max_right _ _) h1
    · exact h2 b hb

theorem foldl_max_mem (as : List F) (a : F) : as.foldl max a ∈ a :: as := by
  induction as generalizing a with
  | nil => simp
  | cons x xs ih =>
    simp only [List.foldl_cons]
    have h := ih (max a x)
    rcases List.mem_cons.mp h with h | h
    · rcases max_choice a x with hm | hm
      · rw [h, hm]; simp
      · rw [h, hm]; simp
    · exact List.mem_cons_of_mem _ (List.mem_cons_of_mem _ h)

theorem Mat.mem_entries_iff {α : Type} (m : Mat α) (v : α) :
    v ∈ m.entries ↔ ∃ r c : Nat, r < m.rows ∧ c < m.cols ∧ m.data r c = v := by
  unfold Mat.entries
  simp only [List.mem_flatMap, List.mem_range, List.mem_map]
  constructor
  · rintro ⟨r, hr, c, hc, rfl⟩
    exact ⟨r, c, hr, hc, rfl⟩
  · rintro ⟨r, c, hr, hc, rfl⟩
    exact ⟨r, hr, c, hc, rfl⟩

/-- On a matrix with at least one element `minMaxLoc` returns a lower and an upper bound
of the elements, both attained. -/
theorem minMaxLoc_spec (m : Mat F) (hrows : 0 < m.rows) (hcols : 0 < m.cols) :
    ∃ mn mx : F, minMaxLoc m = some (mn, mx) ∧
      (∀ r c : Nat, r < m.rows → c < m.cols → mn ≤ m.data r c ∧ m.data r c ≤ mx) ∧
      (∃ r c : Nat, r < m.rows ∧ c < m.cols ∧ m.data r c = mn) ∧
      (∃ r c : Nat, r < m.rows ∧ c < m.cols ∧ m.data r c = mx) := by
  unfold minMaxLoc
  cases he : m.entries with
  | nil =>
    have : m.data 0 0 ∈ m.entries := (Mat.mem_entries_iff m _).mpr ⟨0, 0, hrows, hcols, rfl⟩
    rw [he] at this
    simp at this
  | cons a as =>
    refine ⟨as.foldl min a, as.foldl max a, rfl, ?_, ?_, ?_⟩
    · intro r c hr hc
      have hmem : m.data r c ∈ a :: as := by
        rw [← he]
        exact (Mat.mem_entries_iff m _).mpr ⟨r, c, hr, hc, rfl⟩
      rcases List.mem_cons.mp hmem with h | h
      · rw [h]
        exact ⟨(foldl_min_le as a).1, (le_foldl_max as a).1⟩
      · exact ⟨(foldl_min_le as a).2 _ h, (le_foldl_max as a).2 _ h⟩
    · have := foldl_min_mem as a
      rw [← he] at this
      exact (Mat.mem_entries_iff m _).mp this
    · have := foldl_max_mem as a
      rw [← he] at this
      exact (Mat.mem_entries_iff m _).mp this

end MinMax

/-! ## Properties of the visualization helper -/

theorem minMaxLoc_exampleFloat : minMaxLoc (exampleFloat ℝ) = some (1, 3) := by
  simp [minMaxLoc, Mat.entries, exampleFloat, List.range_succ]

theorem minMaxLoc_exampleConstant : minMaxLoc (exampleConstant ℝ) = some (2, 2) := by
  simp [minMaxLoc, Mat.entries, exampleConstant, List.range_succ]

/-- When all elements lie in `[0, 1)` the call leaves the input matrix as it was. -/
theorem convertFloatToUchar_unit_range (saturate : ℝ → uchar) (m : Mat ℝ) (mn mx : ℝ)
    (hmm : minMaxLoc m = some (mn, mx)) (hunit : mn ≥ 0 ∧ mx < 1) :
    convertFloatToUchar saturate m = some ⟨m.convertTo saturate 255, m⟩ := by
  unfold convertFloatToUchar
  rw [hmm]
  simp only [Option.some_bind, if_pos hunit]

/-- Outside that case the call subtracts the minimum from the input matrix in place and
converts the shifted matrix with the factor `255 / (max - min)`. -/
theorem convertFloatToUchar_rescale (saturate : ℝ → uchar) (m : Mat ℝ) (mn mx : ℝ)
    (hmm : minMaxLoc m = some (mn, mx)) (hno : ¬ (mn ≥ 0 ∧ mx < 1)) :
    convertFloatToUchar saturate m =
      some ⟨(m.subScalar mn).convertTo saturate (255 / (mx - mn)), m.subScalar mn⟩ := by
  unfold convertFloatToUchar
  rw [hmm]
  simp only [Option.some_bind, if_neg hno]

/-- C11 (side-effect-free) at the 1 x 2 matrix with the elements 1 and 3: the call
takes the rescaling branch, and the matrix passed as `floatMat` holds 0 and 2
afterwards. -/
theorem convert_changes_input :
    ∀ saturate : ℝ → uchar, ∃ res : ConvertResult ℝ,
      convertFloatToUchar saturate (exampleFloat ℝ) = some res ∧
      (exampleFloat ℝ).data 0 0 = 1 ∧ res.floatMat.data 0 0 = 0 ∧
      (exampleFloat ℝ).data 0 1 = 3 ∧ res.floatMat.data 0 1 = 2 := by
  intro saturate
  refine ⟨_, convertFloatToUchar_rescale saturate _ 1 3 minMaxLoc_exampleFloat
    (by norm_num), ?_, ?_, ?_, ?_⟩
  · simp [exampleFloat]
  · simp [exampleFloat, Mat.subScalar]
  · simp [exampleFloat]
  · simp [exampleFloat, Mat.subScalar]
    norm_num

/-- C15 (scaling policy): for every float matrix with at least one element, with
minimum `min` and maximum `max`, `convertFloatToUchar` returns; each output element is
the cast of `v * 255` when `min ≥ 0` and `max < 1`, and otherwise the cast of
`(v - min) * (255 / (max - min))`; in the second case with `max > min` the scaled value
is 0 at the minimum, 255 at the maximum and between 0 and 255 at every element. -/
theorem convert_scaling (saturate : ℝ → uchar) (m : Mat ℝ) (hrows : 0 < m.rows)
    (hcols : 0 < m.cols) :
    ∃ (mn mx : ℝ) (res : ConvertResult ℝ),
      minMaxLoc m = some (mn, mx) ∧ convertFloatToUchar saturate m = some res ∧
      (∀ r c : Nat, r < m.rows → c < m.cols → mn ≤ m.data r c ∧ m.data r c ≤ mx) ∧
      (∃ r c : Nat, r < m.rows ∧ c < m.cols ∧ m.data r c = mn) ∧
      (∃ r c : Nat, r < m.rows ∧ c < m.cols ∧ m.data r c = mx) ∧
      (mn ≥ 0 ∧ mx < 1 → ∀ r c : Nat, res.ucharMat.data r c = saturate (m.data r c * 255)) ∧
      (¬ (mn ≥ 0 ∧ mx < 1) →
        (∀ r c : Nat,
          res.ucharMat.data r c = saturate ((m.data r c - mn) * (255 / (mx - mn)))) ∧
        (mn < mx →
          (mn - mn) * (255 / (mx - mn)) = 0 ∧ (mx - mn) * (255 / (mx - mn)) = 255 ∧
          ∀ r c : Nat, r < m.rows → c < m.cols →
            0 ≤ (m.data r c - mn) * (255 / (mx - mn)) ∧
              (m.data r c - mn) * (255 / (mx - mn)) ≤ 255)) := by
  obtain ⟨mn, mx, hmm, hbound, hmin, hmax⟩ := minMaxLoc_spec m hrows hcols
  by_cases hunit : mn ≥ 0 ∧ mx < 1
  · refine ⟨mn, mx, _, hmm, convertFloatToUchar_unit_range saturate m mn mx hmm hunit,
      hbound, hmin, hmax, ?_, ?_⟩
    · intro _ r c
      rfl
    · intro hno
      exact absurd hunit hno
  · refine ⟨mn, mx, _, hmm, convertFloatToUchar_rescale saturate m mn mx hmm hunit,
      hbound, hmin, hmax, ?_, ?_⟩
    · intro h
      exact absurd h hunit
    · intro _
      refine ⟨fun r c => rfl, ?_⟩
      intro hlt
      have hpos : 0 < mx - mn := by linarith
      refine ⟨by simp, by field_simp, ?_⟩
      intro r c hr hc
      obtain ⟨h1, h2⟩ := hbound r c hr hc
      have hk : 0 ≤ 255 / (mx - mn) := div_nonneg (by norm_num) (le_of_lt hpos)
      refine ⟨mul_nonneg (by linarith) hk, ?_⟩
      calc (m.data r c - mn) * (255 / (mx - mn))
          ≤ (mx - mn) * (255 / (mx - mn)) := mul_le_mul_of_nonneg_right (by linarith) hk
        _ = 255 := by field_simp

theorem convert_scaling_witness :
    (0 < (exampleFloat ℝ).rows ∧ 0 < (exampleFloat ℝ).cols) ∧
    ∃ (mn mx : ℝ) (res : ConvertResult ℝ),
      minMaxLoc (exampleFloat ℝ) = some (mn, mx) ∧
      convertFloatToUchar (fun _ => 0) (exampleFloat ℝ) = some res ∧
      (∀ r c : Nat, r < (exampleFloat ℝ).rows → c < (exampleFloat ℝ).cols →
        mn ≤ (exampleFloat ℝ).data r c ∧ (exampleFloat ℝ).data r c ≤ mx) ∧
      (∃ r c : Nat, r < (exampleFloat ℝ).rows ∧ c < (exampleFloat ℝ).cols ∧
        (exampleFloat ℝ).data r c = mn) ∧
      (∃ r c : Nat, r < (exampleFloat ℝ).rows ∧ c < (exampleFloat ℝ).cols ∧
        (exampleFloat ℝ).data r c = mx) ∧
      (mn ≥ 0 ∧ mx < 1 → ∀ r c : Nat,
        res.ucharMat.data r c = (fun _ => 0) ((exampleFloat ℝ).data r c * 255)) ∧
      (¬ (mn ≥ 0 ∧ mx < 1) →
        (∀ r c : Nat,
          res.ucharMat.data r c =
            (fun _ => 0) (((exampleFloat ℝ).data r c - mn) * (255 / (mx - mn)))) ∧
        (mn < mx →
          (mn - mn) * (255 / (mx - mn)) = 0 ∧ (mx - mn) * (255 / (mx - mn)) = 255 ∧
          ∀ r c : Nat, r < (exampleFloat ℝ).rows → c < (exampleFloat ℝ).cols →
            0 ≤ ((exampleFloat ℝ).data r c - mn) * (255 / (mx - mn)) ∧
              ((exampleFloat ℝ).data r c - mn) * (255 / (mx - mn)) ≤ 255)) :=
  ⟨⟨by decide, by decide⟩,
    convert_scaling (fun _ => 0) (exampleFloat ℝ) (by decide) (by decide)⟩

/-- C17 (non-zero divisor) at the 1 x 1 matrix with the element 2: minimum and maximum
are both 2, the test `min >= 0 && max < 1` fails, so the rescaling branch runs, with the
divisor `max - min = 2 - 2 = 0`. -/
theorem convert_divisor_zero :
    minMaxLoc (exampleConstant ℝ) = some (2, 2) ∧ ¬ ((2 : ℝ) ≥ 0 ∧ (2 : ℝ) < 1) ∧
    (2 : ℝ) - 2 = 0 ∧
    ∀ saturate : ℝ → uchar,
      convertFloatToUchar saturate (exampleConstant ℝ) =
        some ⟨((exampleConstant ℝ).subScalar 2).convertTo saturate (255 / (2 - 2)),
          (exampleConstant ℝ).subScalar 2⟩ :=
  ⟨minMaxLoc_exampleConstant, by norm_num, by norm_num,
    fun saturate => convertFloatToUchar_rescale saturate _ 2 2 minMaxLoc_exampleConstant
      (by norm_num)⟩

end TwoPhaseKernelEstimation
